import Mathlib

/-!
Verification development for the PurifyBrowserExtension request pipeline.

The file shallowly embeds three modules of the extension:
* `Ledger` — `Extension/lib/filter/request-context-storage.js` (request
  context lifecycle, filtering-log events, rule-hit recording);
* `Safebrowsing` — the safebrowsing filter (host extraction, hash caches,
  suspension window, lookup control flow);
* `Stealth` — the tracking-parameter stripping core of
  `Extension/lib/stealth.js`.

JavaScript maps/objects are embedded as association lists, the filtering
log and the webRequest service as an event trace, and callback-style
control flow as an explicit outcome datatype.
-/

namespace PurifySpec

/-- Association-list lookup; embeds JS Map.get / object property read. -/
def alGet {α β : Type} [DecidableEq α] : List (α × β) → α → Option β
  | [], _ => none
  | (k, v) :: rest, a => if k = a then some v else alGet rest a

/-- Association-list insert/overwrite; embeds JS Map.set / object property
write (an existing key keeps its position, a new key is appended, matching
JS insertion-order semantics). -/
def alSet {α β : Type} [DecidableEq α] : List (α × β) → α → β → List (α × β)
  | [], a, b => [(a, b)]
  | (k, v) :: rest, a, b => if k = a then (a, b) :: rest else (k, v) :: alSet rest a b

/-- Association-list delete; embeds JS Map.delete. -/
def alDel {α β : Type} [DecidableEq α] : List (α × β) → α → List (α × β)
  | [], _ => []
  | (k, v) :: rest, a => if k = a then rest else (k, v) :: alDel rest a

theorem alGet_alSet {α β : Type} [DecidableEq α] (m : List (α × β)) (a x : α) (b : β) :
    alGet (alSet m a b) x = if a = x then some b else alGet m x := by
  induction m with
  | nil => simp [alGet, alSet]
  | cons hd tl ih =>
    obtain ⟨k, v⟩ := hd
    by_cases hk : k = a
    · subst hk
      by_cases hx : k = x <;> simp [alGet, alSet, hx]
    · by_cases hx : k = x
      · subst hx
        have hax : ¬a = k := fun hh => hk hh.symm
        simp [alGet, alSet, hk, hax]
      · simp [alGet, alSet, hk, hx, ih]

theorem alGet_alSet_self {α β : Type} [DecidableEq α] (m : List (α × β)) (a : α) (b : β) :
    alGet (alSet m a b) a = some b := by
  simp [alGet_alSet]

theorem alGet_alDel_ne {α β : Type} [DecidableEq α] (m : List (α × β)) (a x : α)
    (h : a ≠ x) : alGet (alDel m a) x = alGet m x := by
  induction m with
  | nil => simp [alDel]
  | cons hd tl ih =>
    obtain ⟨k, v⟩ := hd
    by_cases hk : k = a
    · simp [alGet, alDel, hk, h]
    · simp [alGet, alDel, hk, ih]

theorem alGet_eq_none_of_not_mem {α β : Type} [DecidableEq α] (m : List (α × β)) (a : α)
    (h : a ∉ m.map Prod.fst) : alGet m a = none := by
  induction m with
  | nil => rfl
  | cons hd tl ih =>
    obtain ⟨k, v⟩ := hd
    simp only [List.map_cons, List.mem_cons, not_or] at h
    have hk : ¬k = a := fun hh => h.1 hh.symm
    simp [alGet, hk, ih h.2]

theorem alGet_alDel_self_of_nodup {α β : Type} [DecidableEq α] (m : List (α × β)) (a : α)
    (h : (m.map Prod.fst).Nodup) : alGet (alDel m a) a = none := by
  induction m with
  | nil => rfl
  | cons hd tl ih =>
    obtain ⟨k, v⟩ := hd
    simp only [List.map_cons, List.nodup_cons] at h
    by_cases hk : k = a
    · subst hk
      simp [alDel, alGet_eq_none_of_not_mem tl k h.1]
    · simp [alGet, alDel, hk, ih h.2]

theorem alSet_alSet {α β : Type} [DecidableEq α] (m : List (α × β)) (a : α) (b c : β) :
    alSet (alSet m a b) a c = alSet m a c := by
  induction m with
  | nil => simp [alSet]
  | cons hd tl ih =>
    obtain ⟨k, v⟩ := hd
    by_cases hk : k = a
    · simp [alSet, hk]
    · simp [alSet, hk, ih]

theorem alDel_alSet_of_get_none {α β : Type} [DecidableEq α] (m : List (α × β)) (a : α)
    (b : β) (h : alGet m a = none) : alDel (alSet m a b) a = m := by
  induction m with
  | nil => simp [alSet, alDel]
  | cons hd tl ih =>
    obtain ⟨k, v⟩ := hd
    by_cases hk : k = a
    · simp [alGet, hk] at h
    · simp only [alGet, if_neg hk] at h
      simp [alSet, alDel, hk, ih h]

theorem mem_keys_alSet {α β : Type} [DecidableEq α] (m : List (α × β)) (a x : α) (b : β) :
    x ∈ (alSet m a b).map Prod.fst ↔ x ∈ m.map Prod.fst ∨ x = a := by
  induction m with
  | nil => simp [alSet]
  | cons hd tl ih =>
    obtain ⟨k, v⟩ := hd
    by_cases hk : k = a
    · subst hk
      simp [alSet]
      tauto
    · simp [alSet, hk, ih]
      tauto

theorem nodup_keys_alSet {α β : Type} [DecidableEq α] (m : List (α × β)) (a : α) (b : β)
    (h : (m.map Prod.fst).Nodup) : ((alSet m a b).map Prod.fst).Nodup := by
  induction m with
  | nil => simp [alSet]
  | cons hd tl ih =>
    obtain ⟨k, v⟩ := hd
    simp only [List.map_cons, List.nodup_cons] at h
    by_cases hk : k = a
    · subst hk
      have he : alSet ((k, v) :: tl) k b = (k, b) :: tl := by simp [alSet]
      rw [he, List.map_cons, List.nodup_cons]
      exact ⟨h.1, h.2⟩
    · simp only [alSet, if_neg hk, List.map_cons, List.nodup_cons]
      refine ⟨fun hc => ?_, ih h.2⟩
      rcases (mem_keys_alSet tl a k b).1 hc with hm | he
      · exact h.1 hm
      · exact hk he

namespace Ledger

/-- Request types relevant to the embedded code paths
(purify.RequestTypes). -/
inductive RequestType
  | DOCUMENT
  | SUBDOCUMENT
  | CSP
  | OTHER
deriving DecidableEq

/-- Lifecycle states of the two request axes (the `States` object). -/
inductive LifeState
  | NONE
  | PROCESSING
  | DONE
deriving DecidableEq

/-- Rules are opaque objects; only identity matters here. -/
abbrev Rule := Nat

/-- Serialized HTML elements are opaque. -/
abbrev Elem := Nat

/-- The `RequestContext` record of request-context-storage.js.  Fields that
JS leaves `undefined` until first written are embedded as `Option`. -/
structure RequestContext where
  requestId : String
  requestUrl : String
  referrerUrl : String
  originUrl : String
  requestType : RequestType
  tabId : Nat
  eventId : Nat
  requestState : LifeState
  contentModifyingState : LifeState
  requestRule : Option Rule := none
  replaceRules : Option (List Rule) := none
  cspRules : Option (List Rule) := none
  contentRules : Option (List Rule) := none
  elements : Option (List (Rule × List Elem)) := none
  stealthActions : Option Nat := none
  requestHeaders : Option (List (String × String)) := none
  responseHeaders : Option (List (String × String)) := none
  modifiedRequestHeaders : Option (List (String × String)) := none
  modifiedResponseHeaders : Option (List (String × String)) := none
deriving DecidableEq

/-- A rule-hit argument passed to purify.webRequestService.recordRuleHit.
The source pushes the matched request rule, each CSP rule and each content
rule individually, but pushes the whole replaceRules array as a single
element, so a hit is either one rule or a whole list of rules. -/
inductive RuleHit
  | one (rule : Rule)
  | many (rules : List Rule)
deriving DecidableEq

/-- Calls made to the filtering-log and webRequest-service collaborators. -/
inductive LogEvent
  | clearEventsByTabId (tabId : Nat)
  | addHttpRequestEvent (tabId : Nat) (requestUrl referrerUrl : String)
      (requestType : RequestType) (requestRule : Option Rule) (eventId : Option Nat)
  | bindRuleToHttpRequestEvent (tabId : Nat) (rule : Rule) (eventId : Nat)
  | bindReplaceRulesToHttpRequestEvent (tabId : Nat) (rules : List Rule) (eventId : Nat)
  | bindStealthActionsToHttpRequestEvent (tabId : Nat) (actions : Nat) (eventId : Nat)
  | addCosmeticEvent (tabId : Nat) (element : Elem) (requestUrl : String)
      (requestType : RequestType) (rule : Rule)
  | recordRuleHit (tabId : Nat) (hit : RuleHit) (requestUrl : String)
deriving DecidableEq

/-- The module-level mutable state of request-context-storage.js:
the `contexts` map, the `nextEventId` counter, and (as an observation)
the trace of collaborator calls issued so far. -/
structure LedgerState where
  contexts : List (String × RequestContext)
  nextEventId : Nat
  log : List LogEvent
deriving DecidableEq

def initialState : LedgerState := { contexts := [], nextEventId := 0, log := [] }

/-- `appendRules` of the source: appends when the value to append is
defined (a JS array, even empty, is truthy). -/
def appendRules (original : Option (List Rule)) (toAppend : Option (List Rule)) :
    Option (List Rule) :=
  match toAppend with
  | none => original
  | some l => some (original.getD [] ++ l)

/-- `copyHeaders` of the source: creates a fresh array of name/value pairs. -/
def copyHeaders (headers : List (String × String)) : List (String × String) :=
  headers.map (fun h => (h.1, h.2))

/-- `get` of the source. -/
def get (s : LedgerState) (requestId : String) : Option RequestContext :=
  alGet s.contexts requestId

/-- `record` of the source: assigns the next event id, clears the per-tab
filtering log only for a top-level DOCUMENT request with no existing
context (an existing context means a redirect re-delivery), stores a fresh
context and emits the initial request-observed log event. -/
def record (s : LedgerState) (requestId requestUrl referrerUrl originUrl : String)
    (requestType : RequestType) (tabId : Nat) : LedgerState :=
  let eventId := s.nextEventId + 1
  let log1 :=
    if requestType = RequestType.DOCUMENT ∧ alGet s.contexts requestId = none then
      s.log ++ [LogEvent.clearEventsByTabId tabId]
    else s.log
  let context : RequestContext :=
    { requestId := requestId, requestUrl := requestUrl, referrerUrl := referrerUrl,
      originUrl := originUrl, requestType := requestType, tabId := tabId,
      eventId := eventId, requestState := LifeState.PROCESSING,
      contentModifyingState := LifeState.NONE }
  { contexts := alSet s.contexts requestId context,
    nextEventId := eventId,
    log := log1 ++ [LogEvent.addHttpRequestEvent tabId requestUrl referrerUrl
                      requestType none (some eventId)] }

/-- `recordEmulated` of the source (WS/WebRTC/popup pseudo-requests). -/
def recordEmulated (s : LedgerState) (requestUrl referrerUrl : String)
    (requestType : RequestType) (tabId : Nat) (requestRule : Rule) : LedgerState :=
  { s with
    log := s.log ++
      [LogEvent.addHttpRequestEvent tabId requestUrl referrerUrl requestType
         (some requestRule) none,
       LogEvent.recordRuleHit tabId (RuleHit.one requestRule) requestUrl] }

/-- The partial update object passed to `update`; a `none` field embeds an
absent JS object key. -/
structure ContextUpdate where
  requestState : Option LifeState := none
  contentModifyingState : Option LifeState := none
  requestRule : Option Rule := none
  replaceRules : Option (List Rule) := none
  cspRules : Option (List Rule) := none
  stealthActions : Option Nat := none
  requestHeaders : Option (List (String × String)) := none
  responseHeaders : Option (List (String × String)) := none
  modifiedRequestHeaders : Option (List (String × String)) := none
  modifiedResponseHeaders : Option (List (String × String)) := none

/-- The context transformation of `update`: every field whose key is
present in the update object is merged into the context (`cspRules`
through `appendRules`, header fields through `copyHeaders`); absent keys
leave the field untouched. -/
def applyUpdate (upd : ContextUpdate) (context : RequestContext) : RequestContext :=
  { context with
    requestState := match upd.requestState with
      | some v => v
      | none => context.requestState
    contentModifyingState := match upd.contentModifyingState with
      | some v => v
      | none => context.contentModifyingState
    requestRule := match upd.requestRule with
      | some r => some r
      | none => context.requestRule
    replaceRules := match upd.replaceRules with
      | some v => some v
      | none => context.replaceRules
    cspRules := match upd.cspRules with
      | some v => appendRules context.cspRules (some v)
      | none => context.cspRules
    stealthActions := match upd.stealthActions with
      | some v => some v
      | none => context.stealthActions
    requestHeaders := match upd.requestHeaders with
      | some v => some (copyHeaders v)
      | none => context.requestHeaders
    responseHeaders := match upd.responseHeaders with
      | some v => some (copyHeaders v)
      | none => context.responseHeaders
    modifiedRequestHeaders := match upd.modifiedRequestHeaders with
      | some v => some (copyHeaders v)
      | none => context.modifiedRequestHeaders
    modifiedResponseHeaders := match upd.modifiedResponseHeaders with
      | some v => some (copyHeaders v)
      | none => context.modifiedResponseHeaders }

/-- The log effect of `update`: a present `requestRule` key binds the rule
to the context's log event at once; nothing else logs. -/
def updateLog (upd : ContextUpdate) (context : RequestContext) (log : List LogEvent) :
    List LogEvent :=
  match upd.requestRule with
  | some r => log ++ [LogEvent.bindRuleToHttpRequestEvent context.tabId r context.eventId]
  | none => log

/-- `update` of the source: merges present fields into the stored context
(no-op when the context is gone). -/
def update (s : LedgerState) (requestId : String) (upd : ContextUpdate) : LedgerState :=
  match alGet s.contexts requestId with
  | none => s
  | some context =>
    { s with contexts := alSet s.contexts requestId (applyUpdate upd context),
             log := updateLog upd context s.log }

/-- `bindContentRule` of the source: appends the rule to `contentRules` and
pushes the serialized element under that rule in the `elements` map. -/
def bindContentRule (s : LedgerState) (requestId : String) (rule : Rule)
    (elementHtml : Elem) : LedgerState :=
  match alGet s.contexts requestId with
  | none => s
  | some context =>
    let context := { context with contentRules := appendRules context.contentRules (some [rule]) }
    let elems := context.elements.getD []
    let ruleElements := (alGet elems rule).getD []
    let elems := alSet elems rule (ruleElements ++ [elementHtml])
    { s with contexts := alSet s.contexts requestId { context with elements := some elems } }

/-- The content-rule flushing loop inside `remove`: per content rule, one
cosmetic event for each associated element, then the rule's entry is
deleted from the `elements` map. -/
def flushContentRules (tabId : Nat) (requestUrl : String) (requestType : RequestType) :
    List Rule → List (Rule × List Elem) → List LogEvent × List (Rule × List Elem)
  | [], elems => ([], elems)
  | r :: rest, elems =>
    let es := (alGet elems r).getD []
    let events := es.map (fun e => LogEvent.addCosmeticEvent tabId e requestUrl requestType r)
    let (evs2, elems2) := flushContentRules tabId requestUrl requestType rest (alDel elems r)
    (events ++ evs2, elems2)

/-- Network-axis flush of `remove` (the `requestState === States.DONE`
branch): log events in source order (request-rule binding, one CSP log
event per CSP rule, stealth-actions binding — a zero bitmask, like an
undefined one, is falsy and skipped), and the `ruleHitsRecords` entries
it contributes (the request rule pushed, the CSP rules concatenated). -/
def netFlush (tabId : Nat) (requestUrl referrerUrl : String) (context : RequestContext) :
    List LogEvent × List RuleHit :=
  let (evs, hits) :=
    match context.requestRule with
    | some requestRule =>
      ([LogEvent.bindRuleToHttpRequestEvent tabId requestRule context.eventId],
       [RuleHit.one requestRule])
    | none => ([], [])
  let (evs, hits) :=
    match context.cspRules with
    | some cspRules =>
      (evs ++ cspRules.map (fun cspRule =>
         LogEvent.addHttpRequestEvent tabId requestUrl referrerUrl
           RequestType.CSP (some cspRule) none),
       hits ++ cspRules.map RuleHit.one)
    | none => (evs, hits)
  let evs :=
    if context.stealthActions.getD 0 ≠ 0 then
      evs ++ [LogEvent.bindStealthActionsToHttpRequestEvent tabId
                (context.stealthActions.getD 0) context.eventId]
    else evs
  (evs, hits)

/-- Content-axis flush of `remove` (the `contentModifyingState ===
States.DONE` branch): the replace-rules binding whose `ruleHitsRecords`
contribution is the whole array pushed as one entry, then the cosmetic
events per content rule and element (emptying the `elements` map), the
content rules concatenated into `ruleHitsRecords`.  Also returns the
resulting `elements` map. -/
def cmFlush (tabId : Nat) (requestUrl : String) (context : RequestContext) :
    List LogEvent × List RuleHit × Option (List (Rule × List Elem)) :=
  let (evs, hits) :=
    match context.replaceRules with
    | some replaceRules =>
      ([LogEvent.bindReplaceRulesToHttpRequestEvent tabId replaceRules context.eventId],
       [RuleHit.many replaceRules])
    | none => ([], [])
  match context.contentRules with
  | some contentRules =>
    let (cosmetic, elems2) :=
      flushContentRules tabId requestUrl context.requestType contentRules
        (context.elements.getD [])
    (evs ++ cosmetic, hits ++ contentRules.map RuleHit.one, some elems2)
  | none => (evs, hits, context.elements)

/-- `remove` of the source: flushes whichever axis reads DONE (resetting it
to NONE), records one `recordRuleHit` call per entry of
`ruleHitsRecords` (network-axis entries first, in push order), and
deletes the context only when both axes read NONE afterwards; otherwise
the mutated context stays in the map. -/
def remove (s : LedgerState) (requestId : String) : LedgerState :=
  match alGet s.contexts requestId with
  | none => s
  | some context =>
    let tabId := context.tabId
    let requestUrl := context.requestUrl
    let referrerUrl := context.referrerUrl
    let nf :=
      if context.requestState = LifeState.DONE then
        netFlush tabId requestUrl referrerUrl context
      else ([], [])
    let cf :=
      if context.contentModifyingState = LifeState.DONE then
        cmFlush tabId requestUrl context
      else ([], [], context.elements)
    let context2 : RequestContext :=
      { context with
        requestState :=
          if context.requestState = LifeState.DONE then LifeState.NONE
          else context.requestState
        contentModifyingState :=
          if context.contentModifyingState = LifeState.DONE then LifeState.NONE
          else context.contentModifyingState
        elements := cf.2.2 }
    let log := s.log ++ nf.1 ++ cf.1 ++
      (nf.2 ++ cf.2.1).map (fun h => LogEvent.recordRuleHit tabId h requestUrl)
    if context2.requestState = LifeState.NONE ∧
       context2.contentModifyingState = LifeState.NONE then
      { s with contexts := alDel s.contexts requestId, log := log }
    else
      { s with contexts := alSet s.contexts requestId context2, log := log }

/-- `onRequestCompleted` of the source. -/
def onRequestCompleted (s : LedgerState) (requestId : String) : LedgerState :=
  remove (update s requestId { requestState := some LifeState.DONE }) requestId

/-- `onContentModificationStarted` of the source. -/
def onContentModificationStarted (s : LedgerState) (requestId : String) : LedgerState :=
  update s requestId { contentModifyingState := some LifeState.PROCESSING }

/-- `onContentModificationFinished` of the source. -/
def onContentModificationFinished (s : LedgerState) (requestId : String) : LedgerState :=
  remove (update s requestId { contentModifyingState := some LifeState.DONE }) requestId

/-- One call to any public operation of the module. -/
inductive Op
  | record (requestId requestUrl referrerUrl originUrl : String)
      (requestType : RequestType) (tabId : Nat)
  | recordEmulated (requestUrl referrerUrl : String) (requestType : RequestType)
      (tabId : Nat) (rule : Rule)
  | update (requestId : String) (upd : ContextUpdate)
  | bindContentRule (requestId : String) (rule : Rule) (element : Elem)
  | remove (requestId : String)
  | onRequestCompleted (requestId : String)
  | onContentModificationStarted (requestId : String)
  | onContentModificationFinished (requestId : String)

/-- Dispatch one operation on the module state. -/
def step (s : LedgerState) : Op → LedgerState
  | Op.record id u r o rt tb => record s id u r o rt tb
  | Op.recordEmulated u r rt tb rule => recordEmulated s u r rt tb rule
  | Op.update id upd => update s id upd
  | Op.bindContentRule id rule e => bindContentRule s id rule e
  | Op.remove id => remove s id
  | Op.onRequestCompleted id => onRequestCompleted s id
  | Op.onContentModificationStarted id => onContentModificationStarted s id
  | Op.onContentModificationFinished id => onContentModificationFinished s id

/-- Run a sequence of operations. -/
def run (s : LedgerState) : List Op → LedgerState
  | [] => s
  | op :: ops => run (step s op) ops

/-- Only `record` draws a fresh event id from the counter. -/
def Op.assignsEventId : Op → Bool
  | Op.record _ _ _ _ _ _ => true
  | _ => false

/-- Number of recordRuleHit calls with a given hit argument in a trace. -/
def hitCount (h : RuleHit) : List LogEvent → Nat
  | [] => 0
  | e :: rest =>
    (match e with
     | LogEvent.recordRuleHit _ h2 _ => if h2 = h then 1 else 0
     | _ => 0) + hitCount h rest

/-- Number of clearEventsByTabId calls for a given tab in a trace. -/
def clearCount (tabId : Nat) : List LogEvent → Nat
  | [] => 0
  | e :: rest =>
    (match e with
     | LogEvent.clearEventsByTabId t => if t = tabId then 1 else 0
     | _ => 0) + clearCount tabId rest

/-- Number of addHttpRequestEvent calls (request-observed records) in a
trace. -/
def observedCount : List LogEvent → Nat
  | [] => 0
  | e :: rest =>
    (match e with
     | LogEvent.addHttpRequestEvent _ _ _ _ _ _ => 1
     | _ => 0) + observedCount rest

/-- Number of addCosmeticEvent calls in a trace. -/
def cosmeticCount : List LogEvent → Nat
  | [] => 0
  | e :: rest =>
    (match e with
     | LogEvent.addCosmeticEvent _ _ _ _ _ => 1
     | _ => 0) + cosmeticCount rest

/-- The sequence of recordRuleHit arguments in a trace. -/
def hitList : List LogEvent → List RuleHit
  | [] => []
  | e :: rest =>
    (match e with
     | LogEvent.recordRuleHit _ h _ => [h]
     | _ => []) ++ hitList rest

theorem hitCount_append (h : RuleHit) (a b : List LogEvent) :
    hitCount h (a ++ b) = hitCount h a + hitCount h b := by
  induction a with
  | nil => simp [hitCount]
  | cons e rest ih => cases e <;> simp [hitCount, ih] <;> omega

theorem clearCount_append (t : Nat) (a b : List LogEvent) :
    clearCount t (a ++ b) = clearCount t a + clearCount t b := by
  induction a with
  | nil => simp [clearCount]
  | cons e rest ih => cases e <;> simp [clearCount, ih] <;> omega

theorem observedCount_append (a b : List LogEvent) :
    observedCount (a ++ b) = observedCount a + observedCount b := by
  induction a with
  | nil => simp [observedCount]
  | cons e rest ih => cases e <;> simp [observedCount, ih] <;> omega

theorem cosmeticCount_append (a b : List LogEvent) :
    cosmeticCount (a ++ b) = cosmeticCount a + cosmeticCount b := by
  induction a with
  | nil => simp [cosmeticCount]
  | cons e rest ih => cases e <;> simp [cosmeticCount, ih] <;> omega

theorem hitList_append (a b : List LogEvent) :
    hitList (a ++ b) = hitList a ++ hitList b := by
  induction a with
  | nil => simp [hitList]
  | cons e rest ih => cases e <;> simp [hitList, ih]

theorem record_nextEventId (s : LedgerState) (id u r o : String) (rt : RequestType)
    (tb : Nat) : (record s id u r o rt tb).nextEventId = s.nextEventId + 1 := rfl

theorem update_nextEventId (s : LedgerState) (id : String) (upd : ContextUpdate) :
    (update s id upd).nextEventId = s.nextEventId := by
  unfold update
  cases alGet s.contexts id <;> rfl

theorem bindContentRule_nextEventId (s : LedgerState) (id : String) (rule : Rule)
    (e : Elem) : (bindContentRule s id rule e).nextEventId = s.nextEventId := by
  unfold bindContentRule
  cases alGet s.contexts id <;> rfl

theorem remove_nextEventId (s : LedgerState) (id : String) :
    (remove s id).nextEventId = s.nextEventId := by
  unfold remove
  cases alGet s.contexts id with
  | none => rfl
  | some context =>
    dsimp only
    rw [apply_ite LedgerState.nextEventId]
    simp

theorem step_nextEventId_le (s : LedgerState) (op : Op) :
    s.nextEventId ≤ (step s op).nextEventId := by
  cases op <;>
    simp [step, record_nextEventId, update_nextEventId, remove_nextEventId,
      bindContentRule_nextEventId, onRequestCompleted, onContentModificationStarted,
      onContentModificationFinished, recordEmulated] <;>
    omega

theorem run_nextEventId_le (ops : List Op) (s : LedgerState) :
    s.nextEventId ≤ (run s ops).nextEventId := by
  induction ops generalizing s with
  | nil => exact Nat.le_refl _
  | cons op ops ih => exact Nat.le_trans (step_nextEventId_le s op) (ih (step s op))

theorem update_preserves_eventId (s : LedgerState) (rid : String) (upd : ContextUpdate)
    (id : String) (c : RequestContext)
    (h : alGet (update s rid upd).contexts id = some c) :
    ∃ c0, alGet s.contexts id = some c0 ∧ c.eventId = c0.eventId := by
  unfold update at h
  cases h0 : alGet s.contexts rid with
  | none => rw [h0] at h; exact ⟨c, h, rfl⟩
  | some ctx =>
    rw [h0] at h
    dsimp only at h
    rw [alGet_alSet] at h
    by_cases hr : rid = id
    · subst hr
      rw [if_pos rfl] at h
      injection h with h2
      subst h2
      exact ⟨ctx, h0, rfl⟩
    · rw [if_neg hr] at h
      exact ⟨c, h, rfl⟩

theorem bindContentRule_preserves_eventId (s : LedgerState) (rid : String) (rule : Rule)
    (e : Elem) (id : String) (c : RequestContext)
    (h : alGet (bindContentRule s rid rule e).contexts id = some c) :
    ∃ c0, alGet s.contexts id = some c0 ∧ c.eventId = c0.eventId := by
  unfold bindContentRule at h
  cases h0 : alGet s.contexts rid with
  | none => rw [h0] at h; exact ⟨c, h, rfl⟩
  | some ctx =>
    rw [h0] at h
    dsimp only at h
    rw [alGet_alSet] at h
    by_cases hr : rid = id
    · subst hr
      rw [if_pos rfl] at h
      injection h with h2
      subst h2
      exact ⟨ctx, h0, rfl⟩
    · rw [if_neg hr] at h
      exact ⟨c, h, rfl⟩

theorem remove_contexts_cases (s : LedgerState) (rid : String) (ctx : RequestContext)
    (h0 : alGet s.contexts rid = some ctx) :
    (remove s rid).contexts = alDel s.contexts rid ∨
    ∃ c2 : RequestContext, c2.eventId = ctx.eventId ∧
      (remove s rid).contexts = alSet s.contexts rid c2 := by
  unfold remove
  rw [h0]
  dsimp only
  repeat' split
  all_goals
    first
      | exact Or.inl rfl
      | (refine Or.inr ⟨_, ?_, rfl⟩; rfl)

theorem remove_preserves_eventId (s : LedgerState) (rid id : String) (c : RequestContext)
    (hnd : (s.contexts.map Prod.fst).Nodup)
    (h : alGet (remove s rid).contexts id = some c) :
    ∃ c0, alGet s.contexts id = some c0 ∧ c.eventId = c0.eventId := by
  cases h0 : alGet s.contexts rid with
  | none =>
    have hrem : remove s rid = s := by unfold remove; rw [h0]
    rw [hrem] at h
    exact ⟨c, h, rfl⟩
  | some ctx =>
    have hdel : alGet (alDel s.contexts rid) id = some c →
        ∃ c0, alGet s.contexts id = some c0 ∧ c.eventId = c0.eventId := by
      intro hh
      by_cases hr : rid = id
      · subst hr
        rw [alGet_alDel_self_of_nodup _ _ hnd] at hh
        cases hh
      · rw [alGet_alDel_ne _ _ _ hr] at hh
        exact ⟨c, hh, rfl⟩
    have hset : ∀ c2 : RequestContext, c2.eventId = ctx.eventId →
        alGet (alSet s.contexts rid c2) id = some c →
        ∃ c0, alGet s.contexts id = some c0 ∧ c.eventId = c0.eventId := by
      intro c2 he hh
      rw [alGet_alSet] at hh
      by_cases hr : rid = id
      · subst hr
        rw [if_pos rfl] at hh
        injection hh with hh2
        subst hh2
        exact ⟨ctx, h0, he⟩
      · rw [if_neg hr] at hh
        exact ⟨c, hh, rfl⟩
    rcases remove_contexts_cases s rid ctx h0 with hcase | ⟨c2, he, hcase⟩
    · rw [hcase] at h
      exact hdel h
    · rw [hcase] at h
      exact hset c2 he h

theorem update_keys_nodup (s : LedgerState) (rid : String) (upd : ContextUpdate)
    (h : (s.contexts.map Prod.fst).Nodup) :
    ((update s rid upd).contexts.map Prod.fst).Nodup := by
  unfold update
  cases alGet s.contexts rid with
  | none => exact h
  | some ctx => exact nodup_keys_alSet _ _ _ h

theorem step_preserves_eventId (s : LedgerState) (op : Op) (id : String)
    (c : RequestContext) (hnd : (s.contexts.map Prod.fst).Nodup)
    (hop : Op.assignsEventId op = false)
    (h : alGet (step s op).contexts id = some c) :
    ∃ c0, alGet s.contexts id = some c0 ∧ c.eventId = c0.eventId := by
  cases op with
  | record _ _ _ _ _ _ => simp [Op.assignsEventId] at hop
  | recordEmulated _ _ _ _ _ => exact ⟨c, h, rfl⟩
  | update rid upd => exact update_preserves_eventId s rid upd id c h
  | bindContentRule rid rule e => exact bindContentRule_preserves_eventId s rid rule e id c h
  | remove rid => exact remove_preserves_eventId s rid id c hnd h
  | onRequestCompleted rid =>
    obtain ⟨c1, hc1, he1⟩ :=
      remove_preserves_eventId _ rid id c (update_keys_nodup s rid _ hnd) h
    obtain ⟨c0, hc0, he0⟩ := update_preserves_eventId s rid _ id c1 hc1
    exact ⟨c0, hc0, he1.trans he0⟩
  | onContentModificationStarted rid => exact update_preserves_eventId s rid _ id c h
  | onContentModificationFinished rid =>
    obtain ⟨c1, hc1, he1⟩ :=
      remove_preserves_eventId _ rid id c (update_keys_nodup s rid _ hnd) h
    obtain ⟨c0, hc0, he0⟩ := update_preserves_eventId s rid _ id c1 hc1
    exact ⟨c0, hc0, he1.trans he0⟩

/-- C10: a second `record` call for a requestId whose context is still open
replaces the stored context with a wholly fresh one: every accumulated rule
binding (requestRule, replaceRules, cspRules, contentRules, elements),
header snapshot and stealthActions field is reset to absent, the network
axis is reset to PROCESSING and the content-modification axis to NONE
(whatever they were before, even mid content modification), and the fresh
eventId is the next counter value.  The statement holds for every prior
state `s`, in particular when a context for this id already exists. -/
theorem record_replaces_with_fresh_context (s : LedgerState)
    (requestId requestUrl referrerUrl originUrl : String)
    (requestType : RequestType) (tabId : Nat) :
    alGet (record s requestId requestUrl referrerUrl originUrl requestType tabId).contexts
        requestId =
      some { requestId := requestId, requestUrl := requestUrl,
             referrerUrl := referrerUrl, originUrl := originUrl,
             requestType := requestType, tabId := tabId,
             eventId := s.nextEventId + 1,
             requestState := LifeState.PROCESSING,
             contentModifyingState := LifeState.NONE,
             requestRule := none, replaceRules := none, cspRules := none,
             contentRules := none, elements := none, stealthActions := none,
             requestHeaders := none, responseHeaders := none,
             modifiedRequestHeaders := none, modifiedResponseHeaders := none } := by
  simp only [record]
  exact alGet_alSet_self _ _ _

/-- C2: `record` clears the per-tab filtering log exactly when the request
type is DOCUMENT and no context exists for the id; every `record` call
emits exactly one request-observed record; a second `record` call with the
same id clears nothing, emits one request-observed record, and assigns a
fresh, strictly larger eventId to the context still keyed by the same
id. -/
theorem record_clear_iff_and_redirect :
    (∀ (s : LedgerState) (requestId requestUrl referrerUrl originUrl : String)
       (requestType : RequestType) (tabId : Nat),
      clearCount tabId
          (record s requestId requestUrl referrerUrl originUrl requestType tabId).log =
        clearCount tabId s.log +
          (if requestType = RequestType.DOCUMENT ∧ alGet s.contexts requestId = none
           then 1 else 0) ∧
      observedCount
          (record s requestId requestUrl referrerUrl originUrl requestType tabId).log =
        observedCount s.log + 1)
  ∧ (∀ (s : LedgerState) (requestId u1 r1 o1 u2 r2 o2 : String)
       (rt1 rt2 : RequestType) (tb1 tb2 : Nat),
      clearCount tb2 (record (record s requestId u1 r1 o1 rt1 tb1) requestId
          u2 r2 o2 rt2 tb2).log =
        clearCount tb2 (record s requestId u1 r1 o1 rt1 tb1).log ∧
      observedCount (record (record s requestId u1 r1 o1 rt1 tb1) requestId
          u2 r2 o2 rt2 tb2).log =
        observedCount (record s requestId u1 r1 o1 rt1 tb1).log + 1 ∧
      (alGet (record s requestId u1 r1 o1 rt1 tb1).contexts requestId).map
          RequestContext.eventId = some (s.nextEventId + 1) ∧
      (alGet (record (record s requestId u1 r1 o1 rt1 tb1) requestId
          u2 r2 o2 rt2 tb2).contexts requestId).map
          RequestContext.eventId = some (s.nextEventId + 2)) := by
  have hone : ∀ (s : LedgerState) (requestId requestUrl referrerUrl originUrl : String)
      (requestType : RequestType) (tabId : Nat),
      clearCount tabId
          (record s requestId requestUrl referrerUrl originUrl requestType tabId).log =
        clearCount tabId s.log +
          (if requestType = RequestType.DOCUMENT ∧ alGet s.contexts requestId = none
           then 1 else 0) ∧
      observedCount
          (record s requestId requestUrl referrerUrl originUrl requestType tabId).log =
        observedCount s.log + 1 := by
    intro s requestId requestUrl referrerUrl originUrl requestType tabId
    by_cases hcond : requestType = RequestType.DOCUMENT ∧ alGet s.contexts requestId = none
    · simp only [record, if_pos hcond]
      constructor
      · rw [clearCount_append, clearCount_append]
        simp [clearCount]
      · rw [observedCount_append, observedCount_append]
        simp [observedCount]
    · simp only [record, if_neg hcond]
      constructor
      · rw [clearCount_append]
        simp [clearCount]
      · rw [observedCount_append]
        simp [observedCount]
  refine ⟨hone, ?_⟩
  intro s requestId u1 r1 o1 u2 r2 o2 rt1 rt2 tb1 tb2
  have hmem : alGet (record s requestId u1 r1 o1 rt1 tb1).contexts requestId =
      some _ := record_replaces_with_fresh_context s requestId u1 r1 o1 rt1 tb1
  have hcond2 : ¬(rt2 = RequestType.DOCUMENT ∧
      alGet (record s requestId u1 r1 o1 rt1 tb1).contexts requestId = none) := by
    rintro ⟨-, hnone⟩
    rw [hmem] at hnone
    cases hnone
  obtain ⟨hc2, ho2⟩ := hone (record s requestId u1 r1 o1 rt1 tb1) requestId u2 r2 o2 rt2 tb2
  refine ⟨?_, ho2, ?_, ?_⟩
  · rw [hc2, if_neg hcond2, Nat.add_zero]
  · rw [hmem]
    rfl
  · rw [record_replaces_with_fresh_context]
    rfl

/-- C9: every context's eventId is assigned at creation from the strictly
increasing process-wide counter: the context stored by `record` carries
eventId equal to the new counter value, and for any two `record` calls
separated by an arbitrary operation sequence the later call's eventId is
strictly greater (in particular two `record` calls for the same requestId
get distinct ids); moreover no operation other than `record` ever changes
the eventId of a stored context. -/
theorem ledger_eventId_assignment :
    (∀ (s : LedgerState) (ops : List Op) (id1 u1 r1 o1 : String) (rt1 : RequestType)
       (tb1 : Nat) (id2 u2 r2 o2 : String) (rt2 : RequestType) (tb2 : Nat),
      (alGet (record s id1 u1 r1 o1 rt1 tb1).contexts id1).map RequestContext.eventId =
        some (record s id1 u1 r1 o1 rt1 tb1).nextEventId ∧
      (alGet (record (run (record s id1 u1 r1 o1 rt1 tb1) ops) id2 u2 r2 o2 rt2 tb2).contexts
          id2).map RequestContext.eventId =
        some (record (run (record s id1 u1 r1 o1 rt1 tb1) ops) id2 u2 r2 o2 rt2 tb2).nextEventId ∧
      (record s id1 u1 r1 o1 rt1 tb1).nextEventId <
        (record (run (record s id1 u1 r1 o1 rt1 tb1) ops) id2 u2 r2 o2 rt2 tb2).nextEventId)
  ∧ (∀ (s : LedgerState) (op : Op) (id : String) (c : RequestContext),
      (s.contexts.map Prod.fst).Nodup →
      Op.assignsEventId op = false →
      alGet (step s op).contexts id = some c →
      ∃ c0, alGet s.contexts id = some c0 ∧ c.eventId = c0.eventId) := by
  constructor
  · intro s ops id1 u1 r1 o1 rt1 tb1 id2 u2 r2 o2 rt2 tb2
    refine ⟨?_, ?_, ?_⟩
    · rw [record_replaces_with_fresh_context]
      rfl
    · rw [record_replaces_with_fresh_context]
      rfl
    · have h1 : (record s id1 u1 r1 o1 rt1 tb1).nextEventId = s.nextEventId + 1 := rfl
      have h2 := run_nextEventId_le ops (record s id1 u1 r1 o1 rt1 tb1)
      have h3 : (record (run (record s id1 u1 r1 o1 rt1 tb1) ops) id2 u2 r2 o2 rt2
          tb2).nextEventId = (run (record s id1 u1 r1 o1 rt1 tb1) ops).nextEventId + 1 := rfl
      omega
  · intro s op id c hnd hop h
    exact step_preserves_eventId s op id c hnd hop h

/-- C3 counterexample: finalizing a context whose replaceRules are
[10, 20] issues the replace-rules flush (the binding event is logged), yet
neither rule 10 nor rule 20 gets its own recordRuleHit call; instead a
single recordRuleHit call receives the whole array as its argument.  This
falsifies the claim that each replace rule produces its own recordRuleHit
call with that rule as the argument. -/
theorem finalize_replace_hit_counterexample :
    let s := onContentModificationFinished
      (onContentModificationStarted
        (update (record initialState "1" "u" "r" "o" RequestType.OTHER 7) "1"
          { replaceRules := some [10, 20] }) "1") "1"
    LogEvent.bindReplaceRulesToHttpRequestEvent 7 [10, 20] 1 ∈ s.log ∧
    hitCount (RuleHit.many [10, 20]) s.log = 1 ∧
    hitCount (RuleHit.one 10) s.log = 0 ∧
    hitCount (RuleHit.one 20) s.log = 0 := by
  decide

set_option maxHeartbeats 8000000 in
/-- C3 (amended): when a context accumulates a request rule, CSP rules,
replace rules and a content rule and is then fully finalized, the
recordRuleHit calls are: one per matched request rule, one per CSP rule
and one per content rule, each with that rule as argument — but the
replace rules are flushed through a single recordRuleHit call whose
argument is the whole replaceRules array.  The context is gone after both
flushes and the content rule's element produced one cosmetic event. -/
theorem finalize_rule_hits (cs : List (String × RequestContext)) (n : Nat)
    (id u r o : String) (rt : RequestType) (tb : Nat) (rr c1 c2 p1 p2 k : Rule) (e : Elem)
    (hget : alGet cs id = none) :
    let s0 : LedgerState := { contexts := cs, nextEventId := n, log := [] }
    let s1 := record s0 id u r o rt tb
    let s2 := update s1 id { requestRule := some rr }
    let s3 := update s2 id { cspRules := some [c1, c2] }
    let s4 := bindContentRule s3 id k e
    let s5 := update s4 id { replaceRules := some [p1, p2] }
    let s6 := onContentModificationStarted s5 id
    let s7 := onRequestCompleted s6 id
    let s8 := onContentModificationFinished s7 id
    hitList s8.log = [RuleHit.one rr, RuleHit.one c1, RuleHit.one c2,
      RuleHit.many [p1, p2], RuleHit.one k] ∧
    cosmeticCount s8.log = 1 ∧
    alGet s8.contexts id = none := by
  by_cases hrt : rt = RequestType.DOCUMENT <;>
    simp [record, update, applyUpdate, updateLog, bindContentRule,
      onContentModificationStarted, onRequestCompleted, onContentModificationFinished,
      remove, netFlush, cmFlush, flushContentRules, appendRules, copyHeaders,
      alGet_alSet, alSet_alSet, alDel_alSet_of_get_none, hget, hrt,
      hitList, hitList_append, cosmeticCount, cosmeticCount_append,
      alGet, alSet, alDel]

/-- C3 (amended) witness: the amended finalize behaviour at concrete
inputs. -/
theorem finalize_rule_hits_witness :
    let s0 : LedgerState := { contexts := [], nextEventId := 0, log := [] }
    let s1 := record s0 "1" "u" "r" "o" RequestType.OTHER 7
    let s2 := update s1 "1" { requestRule := some 1 }
    let s3 := update s2 "1" { cspRules := some [2, 3] }
    let s4 := bindContentRule s3 "1" 6 9
    let s5 := update s4 "1" { replaceRules := some [4, 5] }
    let s6 := onContentModificationStarted s5 "1"
    let s7 := onRequestCompleted s6 "1"
    let s8 := onContentModificationFinished s7 "1"
    hitList s8.log = [RuleHit.one 1, RuleHit.one 2, RuleHit.one 3,
      RuleHit.many [4, 5], RuleHit.one 6] ∧
    cosmeticCount s8.log = 1 ∧
    alGet s8.contexts "1" = none :=
  finalize_rule_hits [] 0 "1" "u" "r" "o" RequestType.OTHER 7 1 2 3 4 5 6 9 rfl

/-- C1 counterexample: with the spec's own call order — `record`, then
`onRequestCompleted`, then `onContentModificationStarted` /
`onContentModificationFinished` — the context (holding request rule 1 and
content rule 2 with one bound element) is deleted already at
`onRequestCompleted`, after only the network-axis flush: the content axis
is never flushed (no cosmetic event, no recordRuleHit for rule 2), which
falsifies "exactly one flush of the content-axis artifacts and deletion
only after both axes have been flushed, in either interleaving order". -/
theorem ledger_order_counterexample :
    let s3 := bindContentRule
      (update (record initialState "1" "u" "r" "o" RequestType.OTHER 7) "1"
        { requestRule := some 1 }) "1" 2 5
    let s4 := onRequestCompleted s3 "1"
    let s6 := onContentModificationFinished
      (onContentModificationStarted s4 "1") "1"
    alGet s4.contexts "1" = none ∧
    hitCount (RuleHit.one 1) s6.log = 1 ∧
    hitCount (RuleHit.one 2) s6.log = 0 ∧
    cosmeticCount s6.log = 0 := by
  decide

set_option maxHeartbeats 16000000 in
/-- C1 (amended): for a context created by `record` with a bound request
rule and a bound content rule, in the two interleavings where
`onContentModificationStarted` precedes `onRequestCompleted` — start,
complete, finish; and start, finish, complete — each axis is flushed
exactly once (one recordRuleHit per axis rule, one cosmetic event), the
context is deleted only after both flushes, and after completing only one
axis while the other is PROCESSING the context is still present with the
completed axis reset to NONE.  (When `onRequestCompleted` arrives while
the content axis still reads NONE, the context is instead deleted after
the network flush alone — see the counterexample.) -/
theorem ledger_lifecycle_flushes (cs : List (String × RequestContext)) (n : Nat)
    (id u r o : String) (rt : RequestType) (tb : Nat) (r1 r2 : Rule) (e : Elem)
    (hget : alGet cs id = none) :
    let s0 : LedgerState := { contexts := cs, nextEventId := n, log := [] }
    let sA := bindContentRule (update (record s0 id u r o rt tb) id
      { requestRule := some r1 }) id r2 e
    let b1 := onContentModificationStarted sA id
    let b2 := onRequestCompleted b1 id
    let b3 := onContentModificationFinished b2 id
    let c2 := onContentModificationFinished b1 id
    let c3 := onRequestCompleted c2 id
    ((alGet b2.contexts id).map fun c => (c.requestState, c.contentModifyingState)) =
        some (LifeState.NONE, LifeState.PROCESSING) ∧
    hitList b2.log = [RuleHit.one r1] ∧
    cosmeticCount b2.log = 0 ∧
    alGet b3.contexts id = none ∧
    hitList b3.log = [RuleHit.one r1, RuleHit.one r2] ∧
    cosmeticCount b3.log = 1 ∧
    ((alGet c2.contexts id).map fun c => (c.requestState, c.contentModifyingState)) =
        some (LifeState.PROCESSING, LifeState.NONE) ∧
    hitList c2.log = [RuleHit.one r2] ∧
    cosmeticCount c2.log = 1 ∧
    alGet c3.contexts id = none ∧
    hitList c3.log = [RuleHit.one r2, RuleHit.one r1] ∧
    cosmeticCount c3.log = 1 := by
  by_cases hrt : rt = RequestType.DOCUMENT <;>
    simp [record, update, applyUpdate, updateLog, bindContentRule,
      onContentModificationStarted, onRequestCompleted, onContentModificationFinished,
      remove, netFlush, cmFlush, flushContentRules, appendRules, copyHeaders,
      alGet_alSet, alSet_alSet, alDel_alSet_of_get_none, hget, hrt,
      hitList, hitList_append, cosmeticCount, cosmeticCount_append,
      alGet, alSet, alDel]

/-- C1 (amended) witness: the two good interleavings at concrete inputs. -/
theorem ledger_lifecycle_flushes_witness :
    let s0 : LedgerState := { contexts := [], nextEventId := 0, log := [] }
    let sA := bindContentRule (update (record s0 "1" "u" "r" "o" RequestType.OTHER 7) "1"
      { requestRule := some 1 }) "1" 2 5
    let b1 := onContentModificationStarted sA "1"
    let b2 := onRequestCompleted b1 "1"
    let b3 := onContentModificationFinished b2 "1"
    let c2 := onContentModificationFinished b1 "1"
    let c3 := onRequestCompleted c2 "1"
    ((alGet b2.contexts "1").map fun c => (c.requestState, c.contentModifyingState)) =
        some (LifeState.NONE, LifeState.PROCESSING) ∧
    hitList b2.log = [RuleHit.one 1] ∧
    cosmeticCount b2.log = 0 ∧
    alGet b3.contexts "1" = none ∧
    hitList b3.log = [RuleHit.one 1, RuleHit.one 2] ∧
    cosmeticCount b3.log = 1 ∧
    ((alGet c2.contexts "1").map fun c => (c.requestState, c.contentModifyingState)) =
        some (LifeState.PROCESSING, LifeState.NONE) ∧
    hitList c2.log = [RuleHit.one 2] ∧
    cosmeticCount c2.log = 1 ∧
    alGet c3.contexts "1" = none ∧
    hitList c3.log = [RuleHit.one 2, RuleHit.one 1] ∧
    cosmeticCount c3.log = 1 :=
  ledger_lifecycle_flushes [] 0 "1" "u" "r" "o" RequestType.OTHER 7 1 2 5 rfl

/-- C9 witness: the eventId-preservation conjunct at a concrete input — the
context created by a `record` keeps its eventId 1 across a subsequent
`onContentModificationStarted`. -/
theorem ledger_eventId_assignment_witness :
    ∃ c0, alGet (record initialState "1" "u" "r" "o" RequestType.OTHER 7).contexts "1" =
        some c0 ∧
      ({ requestId := "1", requestUrl := "u", referrerUrl := "r", originUrl := "o",
         requestType := RequestType.OTHER, tabId := 7, eventId := 1,
         requestState := LifeState.PROCESSING,
         contentModifyingState := LifeState.PROCESSING } : RequestContext).eventId =
        c0.eventId :=
  ledger_eventId_assignment.2 (record initialState "1" "u" "r" "o" RequestType.OTHER 7)
    (Op.onContentModificationStarted "1") "1" _ (by decide) (by decide) (by decide)

end Ledger

/-- JS String.prototype.split with a one-character separator, on the
character list of the string: "a?b?c" splits into ["a","b","c"], keeping
empty pieces ("a?" into ["a",""], "" into [""]). -/
def splitOnChar (sep : Char) : List Char → List (List Char)
  | [] => [[]]
  | c :: cs =>
    let rest := splitOnChar sep cs
    if c = sep then [] :: rest
    else (c :: rest.headD []) :: rest.tail

/-- JS Array.prototype.join with a one-character separator, on character
lists. -/
def joinChar (sep : Char) : List (List Char) → List Char
  | [] => []
  | [x] => x
  | x :: y :: xs => x ++ sep :: joinChar sep (y :: xs)

theorem splitOnChar_ne_nil (sep : Char) (l : List Char) : splitOnChar sep l ≠ [] := by
  cases l with
  | nil => simp [splitOnChar]
  | cons c cs =>
    simp only [splitOnChar]
    split <;> simp

theorem joinChar_splitOnChar (sep : Char) (l : List Char) :
    joinChar sep (splitOnChar sep l) = l := by
  induction l with
  | nil => rfl
  | cons c cs ih =>
    rcases hts : splitOnChar sep cs with _ | ⟨t0, tr⟩
    · exact absurd hts (splitOnChar_ne_nil sep cs)
    · rw [hts] at ih
      by_cases hc : c = sep
      · subst hc
        simp only [splitOnChar, if_pos rfl, hts, joinChar]
        rw [ih]
        simp
      · rcases tr with _ | ⟨t1, tr⟩
        · simp only [splitOnChar, if_neg hc, hts, List.headD, List.tail, joinChar] at ih ⊢
          rw [ih]
        · simp only [splitOnChar, if_neg hc, hts, List.headD, List.tail, joinChar] at ih ⊢
          rw [List.cons_append, ih]

theorem not_mem_of_mem_splitOnChar (sep : Char) (l : List Char) :
    ∀ p ∈ splitOnChar sep l, sep ∉ p := by
  induction l with
  | nil =>
    intro p hp
    simp [splitOnChar] at hp
    simp [hp]
  | cons c cs ih =>
    intro p hp
    rcases hts : splitOnChar sep cs with _ | ⟨t0, tr⟩
    · exact absurd hts (splitOnChar_ne_nil sep cs)
    · rw [hts] at ih
      by_cases hc : c = sep
      · subst hc
        simp only [splitOnChar, eq_self_iff_true, if_true, hts, List.mem_cons] at hp
        rcases hp with hp | hp
        · simp [hp]
        · exact ih p (List.mem_cons.2 hp)
      · simp only [splitOnChar, hc, if_false, hts, List.headD, List.tail,
          List.mem_cons] at hp
        rcases hp with hp | hp
        · subst hp
          intro hmem
          rcases List.mem_cons.1 hmem with he | he
          · exact hc he.symm
          · exact ih t0 (List.mem_cons_self t0 tr) he
        · exact ih p (List.mem_cons_of_mem t0 hp)

theorem splitOnChar_eq_singleton (sep : Char) (l : List Char) (h : sep ∉ l) :
    splitOnChar sep l = [l] := by
  induction l with
  | nil => rfl
  | cons c cs ih =>
    simp only [List.mem_cons, not_or] at h
    have hc : ¬c = sep := fun hh => h.1 hh.symm
    simp [splitOnChar, if_neg hc, ih h.2]

theorem splitOnChar_append_sep (sep : Char) (p t : List Char) (hp : sep ∉ p) :
    splitOnChar sep (p ++ sep :: t) = p :: splitOnChar sep t := by
  induction p with
  | nil => simp [splitOnChar]
  | cons c p' ih =>
    simp only [List.mem_cons, not_or] at hp
    have hc : ¬c = sep := fun hh => hp.1 hh.symm
    simp [splitOnChar, if_neg hc, ih hp.2, splitOnChar_ne_nil]

theorem splitOnChar_joinChar (sep : Char) (ps : List (List Char)) (hne : ps ≠ [])
    (h : ∀ p ∈ ps, sep ∉ p) : splitOnChar sep (joinChar sep ps) = ps := by
  induction ps with
  | nil => exact absurd rfl hne
  | cons p ps' ih =>
    rcases ps' with _ | ⟨p2, ps''⟩
    · simp only [joinChar]
      exact splitOnChar_eq_singleton sep p (h p (List.mem_cons_self p []))
    · simp only [joinChar]
      rw [splitOnChar_append_sep sep p _ (h p (List.mem_cons_self p _))]
      rw [ih (by simp) (fun q hq => h q (List.mem_cons_of_mem p hq))]

theorem data_mk (l : List Char) : (String.mk l).data = l := rfl

theorem mk_data (s : String) : String.mk s.data = s := rfl

namespace Safebrowsing

/-- Suspension window after a backend error: 40 minutes. -/
def SUSPEND_TTL : Nat := 40 * 60 * 1000

/-- The clean sentinel list name. -/
def SB_WHITE_LIST : String := "whitelist"

/-- Length of the short hash prefixes sent to the backend. -/
def DOMAIN_HASH_LENGTH : Nat := 4

/-- The mutable state of the safebrowsing module: the long-term verdict
cache (hash of host/ to list name), the session-scoped backend-requests
cache (short prefix to true), and the suspension timestamp stored in
localStorage (absent when not suspended). -/
structure SbState where
  sbCache : List (String × String)
  requestsCache : List (String × Bool)
  suspendedFrom : Option Nat
deriving DecidableEq

/-- `createHash` of the source: upper-cased hash of host plus a trailing
slash; the hash function itself (SHA256) is passed as a parameter. -/
def createHash (sha256 : String → String) (host : String) : String :=
  String.mk ((sha256 (host ++ "/")).data.map Char.toUpper)

/-- `suspendSafebrowsing`: record the current time. -/
def suspendSafebrowsing (st : SbState) (now : Nat) : SbState :=
  { st with suspendedFrom := some now }

/-- `resumeSafebrowsing`: drop the stored timestamp. -/
def resumeSafebrowsing (st : SbState) : SbState :=
  { st with suspendedFrom := none }

/-- `createResponse` of the source: the whitelist sentinel becomes null
for the caller, any other list name is surfaced as is. -/
def createResponse (sbList : String) : Option String :=
  if sbList = SB_WHITE_LIST then none else some sbList

/-- The parts of a host, split on dots. -/
def hostParts (host : String) : List String :=
  (splitOnChar '.' host.data).map (fun l => String.mk l)

/-- JS Array.prototype.join with a string separator, on character lists. -/
def joinCharList (sep : List Char) : List (List Char) → List Char
  | [] => []
  | [x] => x
  | x :: y :: xs => x ++ sep ++ joinCharList sep (y :: xs)

theorem joinCharList_singleton (c : Char) (ps : List (List Char)) :
    joinCharList [c] ps = joinChar c ps := by
  induction ps with
  | nil => rfl
  | cons p ps' ih =>
    rcases ps' with _ | ⟨p2, ps''⟩
    · rfl
    · simp only [joinCharList, joinChar] at ih ⊢
      rw [ih]
      simp

/-- Modelled from the spec: `purify.utils.strings.join(array, separator,
startIndex, endIndex)` is missing from the sources; per the spec's
`extractHosts` examples it joins the slice of the array from startIndex
(inclusive) to endIndex (exclusive) with the separator. -/
def stringsJoin (array : List String) (separator : String) (startIndex endIndex : Nat) :
    String :=
  String.mk (joinCharList separator.data
    (((array.take endIndex).drop startIndex).map String.data))

/-- `extractHosts` of the source: a literal IP address yields itself; a
host of at most two labels yields itself; otherwise every dot-suffix from
the full host down to the 2-label root, via `strings.join`.  The IP
predicates (`purify.utils.url.isIpv4/isIpv6`) are parameters. -/
def extractHosts (isIpv4 isIpv6 : String → Bool) (host : String) : List String :=
  if isIpv4 host || isIpv6 host then [host]
  else
    let parts := hostParts host
    if parts.length ≤ 2 then [host]
    else (List.range (parts.length - 1)).map
      (fun i => stringsJoin parts "." i parts.length)

/-- Spec formulation of the suffix list: all right-hand dot-suffixes of the
host down to and including the 2-label root, most specific first. -/
def dotSuffixes (host : String) : List String :=
  let parts := hostParts host
  (List.range (parts.length - 1)).map
    (fun i => String.mk (joinChar '.' ((parts.drop i).map String.data)))

/-- `checkHostsInSbCache` of the source: first host whose full hash has a
truthy (nonempty) cached entry wins; an empty-string entry is falsy in JS
and is skipped. -/
def checkHostsInSbCache (sha256 : String → String) (st : SbState) :
    List String → Option String
  | [] => none
  | host :: rest =>
    match alGet st.sbCache (createHash sha256 host) with
    | some sbList =>
      if sbList ≠ "" then some sbList else checkHostsInSbCache sha256 st rest
    | none => checkHostsInSbCache sha256 st rest

/-- `createHashesMap` of the source: object keyed by full hash with the
host as value (JS object semantics: insertion order, overwrite in
place). -/
def createHashesMap (sha256 : String → String) (hosts : List String) :
    List (String × String) :=
  hosts.foldl (fun acc host => alSet acc (createHash sha256 host) host) []

/-- One line of `processSbResponse`: split on ":", cache the record under
its hash field (per JS property-name coercion a missing index stores the
key "undefined"), and adopt the list name as the result when no truthy
result is set yet and the hash belongs to one of the queried hosts.  The
falsy "no result" is represented by the empty string. -/
def processSbLine (hashesMap : List (String × String))
    (acc : List (String × String) × String) (line : List Char) :
    List (String × String) × String :=
  let r := (splitOnChar ':' line).map (fun l => String.mk l)
  let hash := (r.get? 2).getD "undefined"
  let list := r.headD ""
  let cache := alSet acc.1 hash list
  let result :=
    if acc.2 = "" then
      match alGet hashesMap hash with
      | some host => if host ≠ "" then list else acc.2
      | none => acc.2
    else acc.2
  (cache, result)

/-- `processSbResponse` of the source: reject empty or oversized bodies,
otherwise cache every newline-separated record and return the first list
name whose hash matches a queried host ("" = no match). -/
def processSbResponse (cache : List (String × String)) (responseText : String)
    (hashesMap : List (String × String)) : List (String × String) × String :=
  if responseText = "" ∨ 10 * 1024 < responseText.length then (cache, "")
  else (splitOnChar '\n' responseText.data).foldl (processSbLine hashesMap) (cache, "")

/-- An HTTP response from the lookup backend. -/
structure SbResponse where
  status : Nat
  responseText : String
deriving DecidableEq

/-- The success continuation passed to `purify.backend.lookupSafebrowsing`:
status at least 500 suspends and neither caches nor calls back; any other
status resumes, marks the queried prefixes as asked, parses the body
unless the status is 204, caches the verdict under the host's full hash
and calls back with the translated verdict.  The second component is the
argument of the lookup callback, or none when it is not invoked. -/
def handleLookupResponse (sha256 : String → String) (st : SbState) (host : String)
    (hashesMap : List (String × String)) (shortHashes : List String)
    (response : SbResponse) (now : Nat) : SbState × Option (Option String) :=
  if 500 ≤ response.status then
    (suspendSafebrowsing st now, none)
  else
    let st := resumeSafebrowsing st
    let st := { st with
      requestsCache := shortHashes.foldl (fun acc x => alSet acc x true) st.requestsCache }
    let (cache2, parsed) :=
      if response.status ≠ 204 then
        processSbResponse st.sbCache response.responseText hashesMap
      else (st.sbCache, "")
    let sbList := if parsed = "" then SB_WHITE_LIST else parsed
    ({ st with sbCache := alSet cache2 (createHash sha256 host) sbList },
     some (createResponse sbList))

/-- The error continuation of the backend call: suspend. -/
def handleLookupError (st : SbState) (now : Nat) : SbState :=
  suspendSafebrowsing st now

/-- Synchronous outcome of `lookupUrlWithCallback`: an early return with no
callback and no network call, a synchronous callback invocation, or one
batched network request with the filtered short hashes. -/
inductive LookupOutcome
  | dropped (st : SbState)
  | callbackInvoked (verdict : Option String) (st : SbState)
  | networkLookup (shortHashes : List String) (st : SbState)
deriving DecidableEq

/-- `lookupUrlWithCallback` of the source, up to the backend call: derive
the host (`purify.utils.url.getHost` is a parameter), extract candidate
hosts, consult the long-term cache (first truthy hit wins and calls back),
honour the suspension window (silent drop), filter the short hash prefixes
through the session cache, and either call back clean immediately (caching
the host as whitelisted) or issue the batched network lookup. -/
def lookupUrlWithCallback (sha256 : String → String) (isIpv4 isIpv6 : String → Bool)
    (getHost : String → Option String) (st : SbState) (requestUrl : String)
    (now : Nat) : LookupOutcome :=
  match getHost requestUrl with
  | none => LookupOutcome.dropped st
  | some host =>
    let hosts := extractHosts isIpv4 isIpv6 host
    if hosts.length = 0 then LookupOutcome.dropped st
    else
      match checkHostsInSbCache sha256 st hosts with
      | some sbList => LookupOutcome.callbackInvoked (createResponse sbList) st
      | none =>
        let suspendedFrom := st.suspendedFrom.getD 0
        if suspendedFrom ≠ 0 ∧ now - suspendedFrom < SUSPEND_TTL then
          LookupOutcome.dropped st
        else
          let hashesMap := createHashesMap sha256 hosts
          let hashes := hashesMap.map Prod.fst
          let shortHashes := hashes.map
            (fun h => String.mk (h.data.take DOMAIN_HASH_LENGTH))
          let shortHashes2 := shortHashes.filter
            (fun x => !((alGet st.requestsCache x).getD false))
          if shortHashes2.length = 0 then
            LookupOutcome.callbackInvoked (createResponse SB_WHITE_LIST)
              { st with sbCache := alSet st.sbCache (createHash sha256 host) SB_WHITE_LIST }
          else LookupOutcome.networkLookup shortHashes2 st

/-- `addToSafebrowsingTrusted` of the source. -/
def addToSafebrowsingTrusted (sha256 : String → String)
    (getHost : String → Option String) (st : SbState) (url : String) : SbState :=
  match getHost url with
  | none => st
  | some host =>
    { st with sbCache := alSet st.sbCache (createHash sha256 host) SB_WHITE_LIST }

/-- C7: `extractHosts` returns exactly the one-element list [host] when the
host is a literal IPv4 or IPv6 address (for any IP predicates, which live
outside the given sources); otherwise, for a host of at least two labels,
it returns every right-hand dot-suffix down to and including the 2-label
root, most specific first; a single-label host also yields [host]. -/
theorem extractHosts_spec (isIpv4 isIpv6 : String → Bool) (host : String) :
    ((isIpv4 host || isIpv6 host) = true → extractHosts isIpv4 isIpv6 host = [host]) ∧
    ((isIpv4 host || isIpv6 host) = false → 2 ≤ (hostParts host).length →
      extractHosts isIpv4 isIpv6 host = dotSuffixes host) ∧
    ((isIpv4 host || isIpv6 host) = false → (hostParts host).length = 1 →
      extractHosts isIpv4 isIpv6 host = [host]) := by
  refine ⟨?_, ?_, ?_⟩
  · intro h
    simp [extractHosts, h]
  · intro h hlen
    have hcomp : String.data ∘ (fun l : List Char => String.mk l) = id := rfl
    have hdata : (hostParts host).map String.data = splitOnChar '.' host.data := by
      rw [hostParts, List.map_map, hcomp, List.map_id]
    by_cases h2 : (hostParts host).length ≤ 2
    · have hlen2 : (hostParts host).length = 2 := Nat.le_antisymm h2 hlen
      have hr1 : List.range 1 = [0] := rfl
      have hform : dotSuffixes host = [host] := by
        simp only [dotSuffixes, hlen2]
        norm_num
        simp only [hr1, List.map_cons, List.map_nil, List.drop_zero]
        rw [hdata, joinChar_splitOnChar, mk_data]
      simp [extractHosts, h, h2, hform]
    · have hdot : (".".data : List Char) = ['.'] := rfl
      simp only [extractHosts, h, Bool.false_eq_true, if_false, if_neg h2, dotSuffixes]
      refine List.map_congr_left ?_
      intro i hi
      simp [stringsJoin, List.take_length, joinCharList_singleton, hdot]
  · intro h hlen
    have h2 : (hostParts host).length ≤ 2 := by omega
    simp [extractHosts, h, h2]

theorem extractHosts_length_pos (isIpv4 isIpv6 : String → Bool) (host : String) :
    0 < (extractHosts isIpv4 isIpv6 host).length := by
  unfold extractHosts
  split
  · simp
  · dsimp only
    split
    · simp
    · rename_i hlen
      simp only [List.length_map, List.length_range]
      omega

/-- C7 witness: the spec's two examples, with IP predicates that classify
"1.2.3.4" as an IP literal and "a.b.example.com" as a name. -/
theorem extractHosts_spec_witness :
    extractHosts (fun _ => false) (fun _ => false) "a.b.example.com" =
      ["a.b.example.com", "b.example.com", "example.com"] ∧
    extractHosts (fun _ => true) (fun _ => false) "1.2.3.4" = ["1.2.3.4"] := by
  constructor
  · have h := (extractHosts_spec (fun _ => false) (fun _ => false) "a.b.example.com").2.1
      rfl (by decide)
    rw [h]
    decide
  · exact (extractHosts_spec (fun _ => true) (fun _ => false) "1.2.3.4").1 rfl

/-- C6 counterexample: the long-term cache holds an entry (the empty
string) for the full hash of the extracted host "a.b", yet the lookup does
not call back with that cached verdict — the JS truthiness test skips the
empty entry and the lookup proceeds to a network request. -/
theorem lookup_cache_hit_counterexample :
    let sha : String → String := fun _ => "h"
    let st : SbState := { sbCache := [("H", "")], requestsCache := [],
                          suspendedFrom := none }
    alGet st.sbCache (createHash sha "a.b") = some "" ∧
    lookupUrlWithCallback sha (fun _ => false) (fun _ => false)
        (fun _ => some "a.b") st "http://a.b/x" 0 =
      LookupOutcome.networkLookup ["H"] st := by
  decide

/-- C6 (amended): when the first truthy (nonempty) cached entry over the
extracted hosts exists, the lookup synchronously invokes its callback with
that verdict — translated to none for the whitelist sentinel and surfaced
as-is otherwise — and performs no network call; an earlier host with a
nonempty entry wins regardless of the rest; empty-string entries are
skipped as if absent. -/
theorem lookup_cache_hit (sha256 : String → String) (isIpv4 isIpv6 : String → Bool)
    (getHost : String → Option String) (st : SbState) (url : String) (now : Nat)
    (host v : String)
    (hhost : getHost url = some host)
    (hv : checkHostsInSbCache sha256 st (extractHosts isIpv4 isIpv6 host) = some v) :
    lookupUrlWithCallback sha256 isIpv4 isIpv6 getHost st url now =
      LookupOutcome.callbackInvoked (createResponse v) st ∧
    (v = SB_WHITE_LIST → createResponse v = none) ∧
    (v ≠ SB_WHITE_LIST → createResponse v = some v) ∧
    (∀ h0 hs v0, alGet st.sbCache (createHash sha256 h0) = some v0 → v0 ≠ "" →
      checkHostsInSbCache sha256 st (h0 :: hs) = some v0) := by
  have hne : ¬((extractHosts isIpv4 isIpv6 host).length = 0) := by
    have := extractHosts_length_pos isIpv4 isIpv6 host
    omega
  refine ⟨?_, ?_, ?_, ?_⟩
  · simp only [lookupUrlWithCallback, hhost, if_neg hne, hv]
  · intro hw
    simp [createResponse, hw]
  · intro hw
    simp [createResponse, hw]
  · intro h0 hs v0 hget hv0
    simp [checkHostsInSbCache, hget, hv0]

/-- C6 (amended) witness: a cached "malware" verdict for the host's full
hash is surfaced synchronously. -/
theorem lookup_cache_hit_witness :
    lookupUrlWithCallback (fun _ => "m") (fun _ => false) (fun _ => false)
        (fun _ => some "evil.com")
        { sbCache := [("M", "malware")], requestsCache := [], suspendedFrom := none }
        "http://evil.com/x" 0 =
      LookupOutcome.callbackInvoked (some "malware")
        { sbCache := [("M", "malware")], requestsCache := [], suspendedFrom := none } := by
  have h := (lookup_cache_hit (fun _ => "m") (fun _ => false) (fun _ => false)
    (fun _ => some "evil.com")
    { sbCache := [("M", "malware")], requestsCache := [], suspendedFrom := none }
    "http://evil.com/x" 0 "evil.com" "malware" rfl (by decide)).1
  rw [h]
  decide

/-- C5: when the cache misses, the module is not suspended, and every
short hash prefix was already queried in this session (the filtered set is
empty), the lookup caches the host under its full hash as the whitelist
sentinel and synchronously calls back with none — no network call — even
though the backend never confirmed the host clean. -/
theorem lookup_session_clean (sha256 : String → String) (isIpv4 isIpv6 : String → Bool)
    (getHost : String → Option String) (st : SbState) (url : String) (now : Nat)
    (host : String)
    (hhost : getHost url = some host)
    (hmiss : checkHostsInSbCache sha256 st (extractHosts isIpv4 isIpv6 host) = none)
    (hsusp : ¬(st.suspendedFrom.getD 0 ≠ 0 ∧
      now - st.suspendedFrom.getD 0 < SUSPEND_TTL))
    (hfiltered : (((createHashesMap sha256 (extractHosts isIpv4 isIpv6 host)).map
          Prod.fst).map (fun h => String.mk (h.data.take DOMAIN_HASH_LENGTH))).filter
        (fun x => !((alGet st.requestsCache x).getD false)) = []) :
    lookupUrlWithCallback sha256 isIpv4 isIpv6 getHost st url now =
      LookupOutcome.callbackInvoked none
        { st with sbCache := alSet st.sbCache (createHash sha256 host) SB_WHITE_LIST } := by
  have hne : ¬((extractHosts isIpv4 isIpv6 host).length = 0) := by
    have := extractHosts_length_pos isIpv4 isIpv6 host
    omega
  simp only [lookupUrlWithCallback, hhost, if_neg hne, hmiss, if_neg hsusp, hfiltered]
  rfl

/-- C5 witness: both prefixes already asked in the session cache, so the
lookup calls back clean at once and whitelists the host. -/
theorem lookup_session_clean_witness :
    lookupUrlWithCallback (fun _ => "abcd") (fun _ => false) (fun _ => false)
        (fun _ => some "a.b")
        { sbCache := [], requestsCache := [("ABCD", true)], suspendedFrom := none }
        "http://a.b/x" 3 =
      LookupOutcome.callbackInvoked none
        { sbCache := [("ABCD", "whitelist")], requestsCache := [("ABCD", true)],
          suspendedFrom := none } := by
  have h := lookup_session_clean (fun _ => "abcd") (fun _ => false) (fun _ => false)
    (fun _ => some "a.b")
    { sbCache := [], requestsCache := [("ABCD", true)], suspendedFrom := none }
    "http://a.b/x" 3 "a.b" rfl (by decide) (by decide) (by decide)
  rw [h]
  decide

/-- C4: a backend response with HTTP status at least 500 records the
suspension timestamp, writes no cache entry (the state is unchanged apart
from the timestamp) and never invokes the lookup callback; and any
subsequent lookup within the suspension window whose hosts all miss the
long-term cache returns silently — no network call, no callback, no state
change. -/
theorem lookup_suspension (sha256 : String → String) (isIpv4 isIpv6 : String → Bool)
    (getHost : String → Option String) :
    (∀ (st : SbState) (host : String) (hashesMap : List (String × String))
       (shortHashes : List String) (response : SbResponse) (now : Nat),
      500 ≤ response.status →
      handleLookupResponse sha256 st host hashesMap shortHashes response now =
        ({ st with suspendedFrom := some now }, none))
  ∧ (∀ (st : SbState) (url : String) (t now2 : Nat),
      st.suspendedFrom = some t → 0 < t → now2 - t < SUSPEND_TTL →
      (∀ host, getHost url = some host →
        checkHostsInSbCache sha256 st (extractHosts isIpv4 isIpv6 host) = none) →
      lookupUrlWithCallback sha256 isIpv4 isIpv6 getHost st url now2 =
        LookupOutcome.dropped st) := by
  constructor
  · intro st host hashesMap shortHashes response now hstatus
    simp [handleLookupResponse, suspendSafebrowsing, hstatus]
  · intro st url t now2 hs ht httl hmiss
    cases hh : getHost url with
    | none => simp [lookupUrlWithCallback, hh]
    | some host =>
      have hne : ¬((extractHosts isIpv4 isIpv6 host).length = 0) := by
        have := extractHosts_length_pos isIpv4 isIpv6 host
        omega
      have hget : st.suspendedFrom.getD 0 = t := by rw [hs]; rfl
      have hcond : (st.suspendedFrom.getD 0 ≠ 0 ∧
          now2 - st.suspendedFrom.getD 0 < SUSPEND_TTL) := by
        rw [hget]
        exact ⟨by omega, httl⟩
      simp only [lookupUrlWithCallback, hh, if_neg hne, hmiss host hh, if_pos hcond]

/-- C4 witness: a 500 response suspends without a callback, and a lookup
one millisecond later is silently dropped. -/
theorem lookup_suspension_witness :
    handleLookupResponse (fun _ => "h")
        { sbCache := [], requestsCache := [], suspendedFrom := none }
        "a" [] [] { status := 500, responseText := "x" } 5 =
      ({ sbCache := [], requestsCache := [], suspendedFrom := some 5 }, none) ∧
    lookupUrlWithCallback (fun _ => "h") (fun _ => false) (fun _ => false)
        (fun _ => some "a.b")
        { sbCache := [], requestsCache := [], suspendedFrom := some 5 }
        "http://a.b/x" 6 =
      LookupOutcome.dropped
        { sbCache := [], requestsCache := [], suspendedFrom := some 5 } := by
  constructor
  · exact (lookup_suspension (fun _ => "h") (fun _ => false) (fun _ => false)
      (fun _ => some "a.b")).1
      { sbCache := [], requestsCache := [], suspendedFrom := none }
      "a" [] [] { status := 500, responseText := "x" } 5 (by decide)
  · exact (lookup_suspension (fun _ => "h") (fun _ => false) (fun _ => false)
      (fun _ => some "a.b")).2
      { sbCache := [], requestsCache := [], suspendedFrom := some 5 }
      "http://a.b/x" 5 6 rfl (by decide) (by decide)
      (fun host hh => by injection hh with h2; subst h2; decide)

end Safebrowsing

namespace Stealth

/-- An atom of a compiled tracking-parameter fragment.  removeTrackersFromUrl
(stealth.js lines 550-559) compiles each configured name into a regular
expression fragment: its first '=' is deleted, every '*' is replaced by the
character-class repetition [^&#=]* (here the `glob` atom), the fragment is
trimmed and, if nonempty, joined into ((^|&)(frag1|frag2|...)=[^&#]*) with
the "ig" flags.  A character other than '*' stands for itself in the
fragment text (the `lit` atom); this reading coincides with the regular
expression exactly when the name carries no further regex-significant
character, which the theorems below require through their hypotheses (the
setting is documented as a list of parameter-name globs). -/
inductive PatElem
  | lit (c : Char)
  | glob
deriving DecidableEq

/-- Characters at which the value fragment [^&#]* of the tracking regex
stops. -/
def isValueStop (c : Char) : Bool := c == '&' || c == '#'

/-- Consume the greedy value [^&#]* after the "=" of a matched parameter. -/
def dropValue (s : List Char) : List Char := s.dropWhile (fun c => !isValueStop c)

/-- Fuel-bounded matcher for one compiled fragment followed by "=[^&#]*":
a `lit` matches its character case-insensitively (the regex carries the "i"
flag), a `glob` matches any run of characters outside &#= — all split
points are explored (the empty run first), so a match is found exactly when
the backtracking regex engine finds one.  Returns the input remaining after
the whole matched span.  The remainder does not depend on the exploration
order whenever no `lit` atom is the character '=': no atom can then consume
a '=', so the '=' of the pattern always lands on the first '=' of the
input after the match start.  Fuel decreases at every call; any fuel above
pattern length + input length suffices. -/
def matchFragF : Nat → List PatElem → List Char → Option (List Char)
  | 0, _, _ => none
  | _ + 1, [], s =>
    match s with
    | [] => none
    | c :: rest => if c = '=' then some (dropValue rest) else none
  | fuel + 1, PatElem.lit c :: ps, s =>
    match s with
    | [] => none
    | d :: rest =>
      if c.toLower == d.toLower then matchFragF fuel ps rest else none
  | fuel + 1, PatElem.glob :: ps, s =>
    match matchFragF fuel ps s with
    | some r => some r
    | none =>
      match s with
      | [] => none
      | c :: rest =>
        if c = '&' ∨ c = '#' ∨ c = '=' then none
        else matchFragF fuel (PatElem.glob :: ps) rest

/-- The fragment matcher with sufficient fuel. -/
def matchFrag (ps : List PatElem) (s : List Char) : Option (List Char) :=
  matchFragF (ps.length + s.length + 1) ps s

/-- JS String.prototype.replace with a plain string pattern replaces only
the first occurrence: x.replace("=", "") deletes the first '=' of the
name. -/
def removeFirstEq : List Char → List Char
  | [] => []
  | c :: rest => if c = '=' then rest else c :: removeFirstEq rest

/-- The textual substitution of every '*' by the glob class, read at the
atom level: every '*' becomes the glob atom, every other character a
literal atom. -/
def atomize (x : List Char) : List PatElem :=
  x.map (fun c => if c = '*' then PatElem.glob else PatElem.lit c)

/-- A whitespace literal, for the trim of the fragment text.  The glob
replacement text begins with a bracket and ends with a star, neither
whitespace, so trimming the fragment text never reaches into a glob and
equals the atom-level trim. -/
def isWsAtom : PatElem → Bool
  | PatElem.lit c => c.isWhitespace
  | PatElem.glob => false

/-- String.prototype.trim on a compiled fragment. -/
def atomTrim (f : List PatElem) : List PatElem :=
  ((f.dropWhile isWsAtom).reverse.dropWhile isWsAtom).reverse

/-- String.prototype.trim on the raw setting. -/
def trimChars (l : List Char) : List Char :=
  ((l.dropWhile Char.isWhitespace).reverse.dropWhile Char.isWhitespace).reverse

/-- Lines 550-555: the tracking-parameter setting is trimmed, split on
',', each piece has its first '=' deleted and its '*'s expanded to the
glob class, is trimmed, and empty pieces are dropped (the truthiness
filter). -/
def buildTrackingParams (setting : String) : List (List PatElem) :=
  ((splitOnChar ',' (trimChars setting.data)).map
    (fun x => atomTrim (atomize (removeFirstEq x)))).filter (fun f => !f.isEmpty)

/-- trackingParameters.join("|") of an empty list yields the empty string,
so the compiled alternation ((^|&)()=[^&#]*) has a single empty fragment;
otherwise the alternation holds exactly the compiled fragments. -/
def effectiveFrags (fs : List (List PatElem)) : List (List PatElem) :=
  if fs.isEmpty then [[]] else fs

/-- Try the fragment alternation at the start of the input, in setting
order; the match extends over "=" and the value.  Returns the rest of the
input after the match (independent of which fragment or glob split
matched, for '='-free fragments; see matchFragF). -/
def tryParam : List (List PatElem) → List Char → Option (List Char)
  | [], _ => none
  | f :: fs, s =>
    match matchFrag f s with
    | some r => some r
    | none => tryParam fs s

/-- The global scan of the one-pass replace: past position 0 only the
"&frag=value" alternative of ((^|&)(frags)=[^&#]*) can match; matches are
removed, other characters kept.  Fuel bounds the recursion; any fuel at
least the input length yields the scan (each removal consumes at least the
'&'). -/
def scanF (frags : List (List PatElem)) : Nat → List Char → List Char
  | 0, s => s
  | _ + 1, [] => []
  | fuel + 1, c :: rest =>
    if c == '&' then
      match tryParam frags rest with
      | some r => scanF frags fuel r
      | none => c :: scanF frags fuel rest
    else c :: scanF frags fuel rest

/-- The scan with sufficient fuel. -/
def scanAll (frags : List (List PatElem)) (s : List Char) : List Char :=
  scanF frags s.length s

/-- One pass of `query.replace(trackingParametersRegExp, "")`: at position
0 the engine first tries the "^" alternative, then scans the remainder. -/
def replaceTracking (frags : List (List PatElem)) (s : List Char) : List Char :=
  match tryParam frags s with
  | some r => scanAll frags r
  | none => scanAll frags s

/-- The while loop removing '&' characters collapsed against the '?'. -/
def dropAmp (s : List Char) : List Char := s.dropWhile (fun c => c == '&')

/-- The URL transformation of lines 543-581 for an already compiled
fragment list: split the URL on '?', strip tracking parameters from the
piece between the first and second '?', strip leading '&'s, fall back to
the part before the '?' when the query collapsed to nothing, and return
the rewritten URL only if it differs from the input (null otherwise). -/
def stripUrl (frags : List (List PatElem)) (requestUrl : String) : Option String :=
  match splitOnChar '?' requestUrl.data with
  | p0 :: p1 :: rest =>
    let p1s := dropAmp (replaceTracking frags p1)
    let result := if p1s = [] then p0 else joinChar '?' (p0 :: p1s :: rest)
    if result = requestUrl.data then none else some (String.mk result)
  | _ => none

/-- The URL transformation core of `removeTrackersFromUrl` (after its
settings/context/whitelist guards, which all return null): compile the
tracking-parameter setting and strip the URL. -/
def removeTrackersCore (setting : String) (requestUrl : String) : Option String :=
  stripUrl (effectiveFrags (buildTrackingParams setting)) requestUrl

/-- The strip as a total transformation: the URL itself when no rewrite is
reported. -/
def stripFix (setting : String) (url : String) : String :=
  (removeTrackersCore setting url).getD url

/-- Does the "&frag=value" alternative match anywhere in the input? -/
def hasAmpMatch (frags : List (List PatElem)) : List Char → Bool
  | [] => false
  | c :: rest =>
    (c == '&' && (tryParam frags rest).isSome) || hasAmpMatch frags rest

/-- Does the tracking regex match anywhere in the query piece? -/
def hasMatch (frags : List (List PatElem)) (s : List Char) : Bool :=
  (tryParam frags s).isSome || hasAmpMatch frags s

/-- The characters that are regex-significant in a fragment beyond the
documented glob star.  A name carrying one of these compiles to a regular
expression that diverges from (or, for invalid fragments, throws instead
of) the glob reading of the setting; the theorems below exclude such
names. -/
def regexSpecialChars : List Char :=
  ['\\', '^', '$', '.', '|', '?', '+', '(', ')', '[', ']', '\x7b', '\x7d']

/-- A well-formed tracking-parameter name, per the documented setting
language: a glob over plain characters.  Beyond the star it carries no
regex-significant character, no '&' or '#' in either case form (the match
boundary characters of the built regex), and at most one '=' (which the
pipeline deletes). -/
def PlainName (x : List Char) : Prop :=
  (∀ c ∈ x, c.toLower ≠ '&' ∧ c.toLower ≠ '#' ∧ c ∉ regexSpecialChars) ∧
    x.count '=' ≤ 1

instance (x : List Char) : Decidable (PlainName x) := by
  unfold PlainName
  infer_instance

/-- A compiled-fragment atom arising from a well-formed name: a literal is
not a match-boundary character and not '='. -/
def atomPlain : PatElem → Prop
  | PatElem.lit c => c.toLower ≠ '&' ∧ c.toLower ≠ '#' ∧ c ≠ '='
  | PatElem.glob => True

instance instDecidableAtomPlain : (e : PatElem) → Decidable (atomPlain e)
  | PatElem.lit c =>
    inferInstanceAs (Decidable (c.toLower ≠ '&' ∧ c.toLower ≠ '#' ∧ c ≠ '='))
  | PatElem.glob => inferInstanceAs (Decidable True)

/-- A compiled fragment all of whose atoms are plain. -/
def PlainFrag (f : List PatElem) : Prop := ∀ e ∈ f, atomPlain e

instance (f : List PatElem) : Decidable (PlainFrag f) := by
  unfold PlainFrag
  infer_instance

theorem dropWhile_shape {α : Type} (p : α → Bool) (l : List α) :
    l.dropWhile p = [] ∨ ∃ c t, l.dropWhile p = c :: t ∧ p c = false := by
  induction l with
  | nil => exact Or.inl rfl
  | cons c cs ih =>
    by_cases hc : p c = true
    · rw [List.dropWhile_cons, if_pos hc]
      exact ih
    · rw [List.dropWhile_cons, if_neg hc]
      exact Or.inr ⟨c, cs, rfl, by revert hc; cases p c <;> simp⟩

theorem dropWhile_dropWhile_self {α : Type} (p : α → Bool) (l : List α) :
    (l.dropWhile p).dropWhile p = l.dropWhile p := by
  rcases dropWhile_shape p l with h | ⟨c, t, h, hc⟩
  · rw [h]
    rfl
  · rw [h, List.dropWhile_cons, if_neg (by rw [hc]; exact Bool.false_ne_true)]

theorem matchFragF_zero (ps : List PatElem) (s : List Char) :
    matchFragF 0 ps s = none := rfl

theorem matchFragF_succ_nil_nil (f : Nat) : matchFragF (f + 1) [] [] = none := rfl

theorem matchFragF_succ_nil_cons (f : Nat) (c : Char) (rest : List Char) :
    matchFragF (f + 1) [] (c :: rest) =
      if c = '=' then some (dropValue rest) else none := rfl

theorem matchFragF_succ_lit_nil (f : Nat) (c : Char) (ps : List PatElem) :
    matchFragF (f + 1) (PatElem.lit c :: ps) [] = none := rfl

theorem matchFragF_succ_lit_cons (f : Nat) (c : Char) (ps : List PatElem) (d : Char)
    (rest : List Char) :
    matchFragF (f + 1) (PatElem.lit c :: ps) (d :: rest) =
      if c.toLower == d.toLower then matchFragF f ps rest else none := rfl

theorem matchFragF_succ_glob (f : Nat) (ps : List PatElem) (s : List Char) :
    matchFragF (f + 1) (PatElem.glob :: ps) s =
      match matchFragF f ps s with
      | some r => some r
      | none =>
        match s with
        | [] => none
        | c :: rest =>
          if c = '&' ∨ c = '#' ∨ c = '=' then none
          else matchFragF f (PatElem.glob :: ps) rest := rfl

theorem matchFragF_succ_glob_nil (f : Nat) (ps : List PatElem) :
    matchFragF (f + 1) (PatElem.glob :: ps) [] =
      match matchFragF f ps [] with
      | some r => some r
      | none => none := rfl

theorem matchFragF_succ_glob_cons (f : Nat) (ps : List PatElem) (c : Char)
    (rest : List Char) :
    matchFragF (f + 1) (PatElem.glob :: ps) (c :: rest) =
      match matchFragF f ps (c :: rest) with
      | some r => some r
      | none =>
        if c = '&' ∨ c = '#' ∨ c = '=' then none
        else matchFragF f (PatElem.glob :: ps) rest := rfl

theorem matchFragF_fuel : ∀ (f1 f2 : Nat) (ps : List PatElem) (s : List Char),
    ps.length + s.length + 1 ≤ f1 → ps.length + s.length + 1 ≤ f2 →
    matchFragF f1 ps s = matchFragF f2 ps s := by
  intro f1
  induction f1 with
  | zero =>
    intro f2 ps s h1 _
    omega
  | succ g1 ih =>
    intro f2 ps s h1 h2
    cases f2 with
    | zero => omega
    | succ g2 =>
      cases ps with
      | nil => rfl
      | cons e ps2 =>
        have hle : (e :: ps2).length = ps2.length + 1 := rfl
        cases e with
        | lit c =>
          cases s with
          | nil => rfl
          | cons d rest =>
            have hls : (d :: rest).length = rest.length + 1 := rfl
            have hr : matchFragF g1 ps2 rest = matchFragF g2 ps2 rest := by
              apply ih <;> omega
            rw [matchFragF_succ_lit_cons, matchFragF_succ_lit_cons, hr]
        | glob =>
          have hs1 : matchFragF g1 ps2 s = matchFragF g2 ps2 s := by
            apply ih <;> omega
          cases s with
          | nil =>
            rw [matchFragF_succ_glob_nil, matchFragF_succ_glob_nil, hs1]
          | cons c rest =>
            have hls : (c :: rest).length = rest.length + 1 := rfl
            have hs2 : matchFragF g1 (PatElem.glob :: ps2) rest =
                matchFragF g2 (PatElem.glob :: ps2) rest := by
              apply ih <;> omega
            rw [matchFragF_succ_glob_cons, matchFragF_succ_glob_cons, hs1, hs2]

theorem matchFrag_eq_matchFragF (fuel : Nat) (ps : List PatElem) (s : List Char)
    (h : ps.length + s.length + 1 ≤ fuel) :
    matchFrag ps s = matchFragF fuel ps s :=
  matchFragF_fuel (ps.length + s.length + 1) fuel ps s (Nat.le_refl _) h

theorem matchFrag_nil_nil : matchFrag ([] : List PatElem) [] = none := rfl

theorem matchFrag_nil_cons (c : Char) (rest : List Char) :
    matchFrag [] (c :: rest) = if c = '=' then some (dropValue rest) else none := rfl

theorem matchFrag_lit_nil (c : Char) (ps : List PatElem) :
    matchFrag (PatElem.lit c :: ps) [] = none := rfl

theorem matchFrag_lit_cons (c : Char) (ps : List PatElem) (d : Char) (rest : List Char) :
    matchFrag (PatElem.lit c :: ps) (d :: rest) =
      if c.toLower == d.toLower then matchFrag ps rest else none := by
  have h1 : matchFrag (PatElem.lit c :: ps) (d :: rest) =
      matchFragF (ps.length + rest.length + 2 + 1) (PatElem.lit c :: ps) (d :: rest) := by
    apply matchFrag_eq_matchFragF
    simp only [List.length_cons]
    omega
  rw [h1, matchFragF_succ_lit_cons]
  rw [show matchFragF (ps.length + rest.length + 2) ps rest = matchFrag ps rest from
    (matchFrag_eq_matchFragF (ps.length + rest.length + 2) ps rest (by omega)).symm]

theorem matchFrag_glob_nil (ps : List PatElem) :
    matchFrag (PatElem.glob :: ps) [] =
      match matchFrag ps [] with
      | some r => some r
      | none => none := by
  have h1 : matchFrag (PatElem.glob :: ps) [] =
      matchFragF (ps.length + 1 + 1) (PatElem.glob :: ps) [] := by
    apply matchFrag_eq_matchFragF
    simp only [List.length_cons, List.length_nil]
    omega
  rw [h1, matchFragF_succ_glob_nil]
  rw [show matchFragF (ps.length + 1) ps [] = matchFrag ps [] from
    (matchFrag_eq_matchFragF (ps.length + 1) ps []
      (by simp only [List.length_nil]; omega)).symm]

theorem matchFrag_glob_cons (ps : List PatElem) (c : Char) (rest : List Char) :
    matchFrag (PatElem.glob :: ps) (c :: rest) =
      match matchFrag ps (c :: rest) with
      | some r => some r
      | none =>
        if c = '&' ∨ c = '#' ∨ c = '=' then none
        else matchFrag (PatElem.glob :: ps) rest := by
  have h1 : matchFrag (PatElem.glob :: ps) (c :: rest) =
      matchFragF (ps.length + rest.length + 2 + 1) (PatElem.glob :: ps) (c :: rest) := by
    apply matchFrag_eq_matchFragF
    simp only [List.length_cons]
    omega
  rw [h1, matchFragF_succ_glob_cons]
  rw [show matchFragF (ps.length + rest.length + 2) ps (c :: rest) =
      matchFrag ps (c :: rest) from
    (matchFrag_eq_matchFragF (ps.length + rest.length + 2) ps (c :: rest)
      (by simp only [List.length_cons]; omega)).symm]
  rw [show matchFragF (ps.length + rest.length + 2) (PatElem.glob :: ps) rest =
      matchFrag (PatElem.glob :: ps) rest from
    (matchFrag_eq_matchFragF (ps.length + rest.length + 2) (PatElem.glob :: ps) rest
      (by simp only [List.length_cons]; omega)).symm]

theorem matchFragF_suffix : ∀ (fuel : Nat) (ps : List PatElem) (s r : List Char),
    matchFragF fuel ps s = some r → r.IsSuffix s := by
  intro fuel
  induction fuel with
  | zero =>
    intro ps s r h
    cases h
  | succ f ih =>
    intro ps s r h
    cases ps with
    | nil =>
      cases s with
      | nil => cases h
      | cons c rest =>
        rw [matchFragF_succ_nil_cons] at h
        by_cases hc : c = '='
        · rw [if_pos hc] at h
          injection h with h2
          subst h2
          exact (List.dropWhile_suffix _).trans (List.suffix_cons c rest)
        · rw [if_neg hc] at h
          cases h
    | cons e ps2 =>
      cases e with
      | lit c =>
        cases s with
        | nil => cases h
        | cons d rest =>
          rw [matchFragF_succ_lit_cons] at h
          by_cases hd : (c.toLower == d.toLower) = true
          · rw [if_pos hd] at h
            exact (ih ps2 rest r h).trans (List.suffix_cons d rest)
          · rw [if_neg hd] at h
            cases h
      | glob =>
        rw [matchFragF_succ_glob] at h
        cases hm : matchFragF f ps2 s with
        | some r2 =>
          simp only [hm] at h
          injection h with h2
          exact h2 ▸ ih ps2 s r2 hm
        | none =>
          cases s with
          | nil =>
            simp only [hm] at h
            cases h
          | cons c rest =>
            simp only [hm] at h
            by_cases hstop : c = '&' ∨ c = '#' ∨ c = '='
            · rw [if_pos hstop] at h
              cases h
            · rw [if_neg hstop] at h
              exact (ih (PatElem.glob :: ps2) rest r h).trans (List.suffix_cons c rest)

theorem matchFragF_shape : ∀ (fuel : Nat) (ps : List PatElem) (s r : List Char),
    matchFragF fuel ps s = some r →
    r = [] ∨ ∃ c t, r = c :: t ∧ (c = '&' ∨ c = '#') := by
  intro fuel
  induction fuel with
  | zero =>
    intro ps s r h
    cases h
  | succ f ih =>
    intro ps s r h
    cases ps with
    | nil =>
      cases s with
      | nil => cases h
      | cons c rest =>
        rw [matchFragF_succ_nil_cons] at h
        by_cases hc : c = '='
        · rw [if_pos hc] at h
          injection h with h2
          subst h2
          rcases dropWhile_shape (fun c => !isValueStop c) rest with hsh | ⟨c2, t, hsh, hc2⟩
          · exact Or.inl hsh
          · refine Or.inr ⟨c2, t, hsh, ?_⟩
            have hstop : (c2 == '&' || c2 == '#') = true := by
              revert hc2
              unfold isValueStop
              cases hcc : (c2 == '&' || c2 == '#') <;> simp
            simpa only [Bool.or_eq_true, beq_iff_eq] using hstop
        · rw [if_neg hc] at h
          cases h
    | cons e ps2 =>
      cases e with
      | lit c =>
        cases s with
        | nil => cases h
        | cons d rest =>
          rw [matchFragF_succ_lit_cons] at h
          by_cases hd : (c.toLower == d.toLower) = true
          · rw [if_pos hd] at h
            exact ih ps2 rest r h
          · rw [if_neg hd] at h
            cases h
      | glob =>
        rw [matchFragF_succ_glob] at h
        cases hm : matchFragF f ps2 s with
        | some r2 =>
          simp only [hm] at h
          injection h with h2
          exact h2 ▸ ih ps2 s r2 hm
        | none =>
          cases s with
          | nil =>
            simp only [hm] at h
            cases h
          | cons c rest =>
            simp only [hm] at h
            by_cases hstop : c = '&' ∨ c = '#' ∨ c = '='
            · rw [if_pos hstop] at h
              cases h
            · rw [if_neg hstop] at h
              exact ih (PatElem.glob :: ps2) rest r h

theorem matchFragF_none_headStop : ∀ (fuel : Nat) (ps : List PatElem), PlainFrag ps →
    ∀ (s : List Char), (s = [] ∨ ∃ c t, s = c :: t ∧ (c = '&' ∨ c = '#')) →
    matchFragF fuel ps s = none := by
  intro fuel
  induction fuel with
  | zero =>
    intro ps _ s _
    rfl
  | succ f ih =>
    intro ps hplain s hsh
    cases ps with
    | nil =>
      rcases hsh with rfl | ⟨c, t, rfl, hc⟩
      · rfl
      · rw [matchFragF_succ_nil_cons, if_neg (by rcases hc with rfl | rfl <;> decide)]
    | cons e ps2 =>
      have hptail : PlainFrag ps2 := fun a ha => hplain a (List.mem_cons_of_mem e ha)
      cases e with
      | lit c =>
        rcases hsh with rfl | ⟨d, t, rfl, hd⟩
        · rfl
        · have hcp := hplain (PatElem.lit c) (List.mem_cons_self _ _)
          have hne : ¬((c.toLower == d.toLower) = true) := by
            intro hbeq
            have heq : c.toLower = d.toLower := by
              simpa only [beq_iff_eq] using hbeq
            rcases hd with rfl | rfl
            · exact hcp.1 (by rw [heq]; decide)
            · exact hcp.2.1 (by rw [heq]; decide)
          rw [matchFragF_succ_lit_cons, if_neg hne]
      | glob =>
        rw [matchFragF_succ_glob]
        have hsub : matchFragF f ps2 s = none := ih ps2 hptail s hsh
        simp only [hsub]
        rcases hsh with rfl | ⟨c, t, rfl, hc⟩
        · rfl
        · have hstop : c = '&' ∨ c = '#' ∨ c = '=' := by
            rcases hc with rfl | rfl
            · exact Or.inl rfl
            · exact Or.inr (Or.inl rfl)
          show (if c = '&' ∨ c = '#' ∨ c = '=' then none
            else matchFragF f (PatElem.glob :: ps2) t) = none
          rw [if_pos hstop]

theorem matchFrag_suffix (ps : List PatElem) (s r : List Char)
    (h : matchFrag ps s = some r) : r.IsSuffix s :=
  matchFragF_suffix (ps.length + s.length + 1) ps s r h

theorem matchFrag_shape (ps : List PatElem) (s r : List Char)
    (h : matchFrag ps s = some r) :
    r = [] ∨ ∃ c t, r = c :: t ∧ (c = '&' ∨ c = '#') :=
  matchFragF_shape (ps.length + s.length + 1) ps s r h

theorem matchFrag_none_headStop (ps : List PatElem) (hplain : PlainFrag ps)
    (s : List Char) (hsh : s = [] ∨ ∃ c t, s = c :: t ∧ (c = '&' ∨ c = '#')) :
    matchFrag ps s = none :=
  matchFragF_none_headStop (ps.length + s.length + 1) ps hplain s hsh

theorem tryParam_isSome_iff (frags : List (List PatElem)) (s : List Char) :
    (tryParam frags s).isSome = true ↔
      ∃ f, f ∈ frags ∧ (matchFrag f s).isSome = true := by
  induction frags with
  | nil => simp [tryParam]
  | cons f fs ih =>
    cases hm : matchFrag f s with
    | some r =>
      constructor
      · intro _
        exact ⟨f, List.mem_cons_self f fs, by rw [hm]; rfl⟩
      · intro _
        simp only [tryParam, hm]
        rfl
    | none =>
      simp only [tryParam, hm]
      rw [ih]
      constructor
      · rintro ⟨q, hq, hqm⟩
        exact ⟨q, List.mem_cons_of_mem f hq, hqm⟩
      · rintro ⟨q, hq, hqm⟩
        rcases List.mem_cons.1 hq with rfl | hq2
        · rw [hm] at hqm
          cases hqm
        · exact ⟨q, hq2, hqm⟩

theorem tryParam_suffix (frags : List (List PatElem)) (s r : List Char)
    (h : tryParam frags s = some r) : r.IsSuffix s := by
  induction frags with
  | nil => cases h
  | cons f fs ih =>
    cases hm : matchFrag f s with
    | some r2 =>
      simp only [tryParam, hm] at h
      injection h with h2
      exact h2 ▸ matchFrag_suffix f s r2 hm
    | none =>
      simp only [tryParam, hm] at h
      exact ih h

theorem tryParam_length_le (frags : List (List PatElem)) (s r : List Char)
    (h : tryParam frags s = some r) : r.length ≤ s.length :=
  (tryParam_suffix frags s r h).sublist.length_le

theorem tryParam_shape (frags : List (List PatElem)) (s r : List Char)
    (h : tryParam frags s = some r) :
    r = [] ∨ ∃ c t, r = c :: t ∧ (c = '&' ∨ c = '#') := by
  induction frags with
  | nil => cases h
  | cons f fs ih =>
    cases hm : matchFrag f s with
    | some r2 =>
      simp only [tryParam, hm] at h
      injection h with h2
      exact h2 ▸ matchFrag_shape f s r2 hm
    | none =>
      simp only [tryParam, hm] at h
      exact ih h

theorem tryParam_none_headStop (frags : List (List PatElem))
    (hp : ∀ f ∈ frags, PlainFrag f) (s : List Char)
    (hsh : s = [] ∨ ∃ c t, s = c :: t ∧ (c = '&' ∨ c = '#')) :
    tryParam frags s = none := by
  induction frags with
  | nil => rfl
  | cons f fs ih =>
    have h1 : matchFrag f s = none :=
      matchFrag_none_headStop f (hp f (List.mem_cons_self f fs)) s hsh
    simp only [tryParam, h1]
    exact ih (fun g hg => hp g (List.mem_cons_of_mem f hg))

theorem scanF_nil (frags : List (List PatElem)) : ∀ fuel, scanF frags fuel [] = [] := by
  intro fuel
  cases fuel <;> rfl

theorem scanF_succ_amp_match (frags : List (List PatElem)) (f : Nat) (rest r : List Char)
    (htp : tryParam frags rest = some r) :
    scanF frags (f + 1) ('&' :: rest) = scanF frags f r := by
  simp [scanF, htp]

theorem scanF_succ_amp_none (frags : List (List PatElem)) (f : Nat) (rest : List Char)
    (htp : tryParam frags rest = none) :
    scanF frags (f + 1) ('&' :: rest) = '&' :: scanF frags f rest := by
  simp [scanF, htp]

theorem scanF_succ_keep (frags : List (List PatElem)) (f : Nat) (c : Char)
    (rest : List Char) (hc : c ≠ '&') :
    scanF frags (f + 1) (c :: rest) = c :: scanF frags f rest := by
  simp [scanF, hc]

theorem scanF_headStop (frags : List (List PatElem)) :
    ∀ (fuel : Nat) (s : List Char), s.length ≤ fuel →
    (s = [] ∨ ∃ c t, s = c :: t ∧ (c = '&' ∨ c = '#')) →
    (scanF frags fuel s = [] ∨
      ∃ c t, scanF frags fuel s = c :: t ∧ (c = '&' ∨ c = '#')) := by
  intro fuel
  induction fuel with
  | zero =>
    intro s hlen _
    have hs : s = [] := List.length_eq_zero.1 (Nat.le_zero.1 hlen)
    subst hs
    exact Or.inl rfl
  | succ f ih =>
    intro s hlen hsh
    rcases hsh with rfl | ⟨c, t, rfl, hc⟩
    · exact Or.inl (scanF_nil frags _)
    · have ht : t.length ≤ f := by
        simp only [List.length_cons] at hlen
        omega
      rcases hc with rfl | rfl
      · cases htp : tryParam frags t with
        | some r =>
          rw [scanF_succ_amp_match frags f t r htp]
          exact ih r (le_trans (tryParam_length_le frags t r htp) ht)
            (tryParam_shape frags t r htp)
        | none =>
          rw [scanF_succ_amp_none frags f t htp]
          exact Or.inr ⟨'&', _, rfl, Or.inl rfl⟩
      · rw [scanF_succ_keep frags f '#' t (by decide)]
        exact Or.inr ⟨'#', _, rfl, Or.inr rfl⟩

theorem matchFrag_scanF (frags : List (List PatElem)) :
    ∀ (frag : List PatElem), PlainFrag frag →
    ∀ (s : List Char) (fuel : Nat), s.length ≤ fuel →
      (matchFrag frag (scanF frags fuel s)).isSome = true →
      (matchFrag frag s).isSome = true := by
  intro frag
  induction frag with
  | nil =>
    intro _ s fuel hlen h
    cases s with
    | nil =>
      rw [scanF_nil, matchFrag_nil_nil] at h
      simp at h
    | cons c rest =>
      cases fuel with
      | zero => simp at hlen
      | succ f =>
        have hrest : rest.length ≤ f := by
          simp only [List.length_cons] at hlen
          omega
        by_cases hc : c = '&'
        · subst hc
          exfalso
          cases htp : tryParam frags rest with
          | some r =>
            rw [scanF_succ_amp_match frags f rest r htp] at h
            have hout := scanF_headStop frags f r
              (le_trans (tryParam_length_le frags rest r htp) hrest)
              (tryParam_shape frags rest r htp)
            rw [matchFrag_none_headStop []
              (fun e he => absurd he (List.not_mem_nil e)) _ hout] at h
            simp at h
          | none =>
            rw [scanF_succ_amp_none frags f rest htp] at h
            rw [matchFrag_none_headStop []
              (fun e he => absurd he (List.not_mem_nil e))
              ('&' :: scanF frags f rest) (Or.inr ⟨'&', _, rfl, Or.inl rfl⟩)] at h
            simp at h
        · rw [scanF_succ_keep frags f c rest hc, matchFrag_nil_cons] at h
          rw [matchFrag_nil_cons]
          by_cases hce : c = '='
          · rw [if_pos hce]
            rfl
          · rw [if_neg hce] at h
            simp at h
  | cons e ps ihp =>
    intro hplain s fuel hlen h
    have hptail : PlainFrag ps := fun a ha => hplain a (List.mem_cons_of_mem e ha)
    cases e with
    | lit c =>
      cases s with
      | nil =>
        rw [scanF_nil, matchFrag_lit_nil] at h
        simp at h
      | cons d rest =>
        cases fuel with
        | zero => simp at hlen
        | succ f =>
          have hrest : rest.length ≤ f := by
            simp only [List.length_cons] at hlen
            omega
          by_cases hd : d = '&'
          · subst hd
            exfalso
            cases htp : tryParam frags rest with
            | some r =>
              rw [scanF_succ_amp_match frags f rest r htp] at h
              have hout := scanF_headStop frags f r
                (le_trans (tryParam_length_le frags rest r htp) hrest)
                (tryParam_shape frags rest r htp)
              rw [matchFrag_none_headStop (PatElem.lit c :: ps) hplain _ hout] at h
              simp at h
            | none =>
              rw [scanF_succ_amp_none frags f rest htp] at h
              rw [matchFrag_none_headStop (PatElem.lit c :: ps) hplain
                ('&' :: scanF frags f rest) (Or.inr ⟨'&', _, rfl, Or.inl rfl⟩)] at h
              simp at h
          · rw [scanF_succ_keep frags f d rest hd, matchFrag_lit_cons] at h
            rw [matchFrag_lit_cons]
            by_cases hbeq : (c.toLower == d.toLower) = true
            · rw [if_pos hbeq] at h ⊢
              exact ihp hptail rest f hrest h
            · rw [if_neg hbeq] at h
              simp at h
    | glob =>
      revert fuel
      induction s with
      | nil =>
        intro fuel _ h
        rw [scanF_nil] at h
        exact h
      | cons c rest ihs =>
        intro fuel hlen h
        cases fuel with
        | zero => simp at hlen
        | succ f =>
          have hrest : rest.length ≤ f := by
            simp only [List.length_cons] at hlen
            omega
          by_cases hc : c = '&'
          · subst hc
            exfalso
            cases htp : tryParam frags rest with
            | some r =>
              rw [scanF_succ_amp_match frags f rest r htp] at h
              have hout := scanF_headStop frags f r
                (le_trans (tryParam_length_le frags rest r htp) hrest)
                (tryParam_shape frags rest r htp)
              rw [matchFrag_none_headStop (PatElem.glob :: ps) hplain _ hout] at h
              simp at h
            | none =>
              rw [scanF_succ_amp_none frags f rest htp] at h
              rw [matchFrag_none_headStop (PatElem.glob :: ps) hplain
                ('&' :: scanF frags f rest) (Or.inr ⟨'&', _, rfl, Or.inl rfl⟩)] at h
              simp at h
          · rw [scanF_succ_keep frags f c rest hc, matchFrag_glob_cons] at h
            rw [matchFrag_glob_cons]
            cases hm : matchFrag ps (c :: scanF frags f rest) with
            | some r =>
              have hsome : (matchFrag ps (scanF frags (f + 1) (c :: rest))).isSome
                  = true := by
                rw [scanF_succ_keep frags f c rest hc, hm]
                rfl
              have h2 := ihp hptail (c :: rest) (f + 1)
                (by simp only [List.length_cons]; omega) hsome
              cases hm2 : matchFrag ps (c :: rest) with
              | some r2 =>
                simp only [hm2]
                rfl
              | none =>
                rw [hm2] at h2
                simp at h2
            | none =>
              simp only [hm] at h
              by_cases hstop : c = '&' ∨ c = '#' ∨ c = '='
              · rw [if_pos hstop] at h
                simp at h
              · rw [if_neg hstop] at h
                have h3 := ihs f hrest h
                cases hm2 : matchFrag ps (c :: rest) with
                | some r2 =>
                  simp only [hm2]
                  rfl
                | none =>
                  simp only [hm2]
                  rw [if_neg hstop]
                  exact h3

theorem tryParam_none_scanF (frags : List (List PatElem))
    (hp : ∀ f ∈ frags, PlainFrag f)
    (fuel : Nat) (s : List Char) (hlen : s.length ≤ fuel)
    (h : tryParam frags s = none) :
    tryParam frags (scanF frags fuel s) = none := by
  cases htp : tryParam frags (scanF frags fuel s) with
  | none => rfl
  | some r =>
    exfalso
    have hsome : (tryParam frags (scanF frags fuel s)).isSome = true := by
      rw [htp]
      rfl
    obtain ⟨f2, hmem, hm⟩ := (tryParam_isSome_iff _ _).1 hsome
    have hm2 := matchFrag_scanF frags f2 (hp f2 hmem) s fuel hlen hm
    have hres : (tryParam frags s).isSome = true :=
      (tryParam_isSome_iff _ _).2 ⟨f2, hmem, hm2⟩
    rw [h] at hres
    cases hres

theorem hasAmpMatch_scanF (frags : List (List PatElem))
    (hp : ∀ f ∈ frags, PlainFrag f) :
    ∀ (fuel : Nat) (s : List Char), s.length ≤ fuel →
    hasAmpMatch frags (scanF frags fuel s) = false := by
  intro fuel
  induction fuel with
  | zero =>
    intro s hlen
    have hs : s = [] := List.length_eq_zero.1 (Nat.le_zero.1 hlen)
    subst hs
    rfl
  | succ f ih =>
    intro s hlen
    cases s with
    | nil =>
      rw [scanF_nil]
      rfl
    | cons c rest =>
      have hrest : rest.length ≤ f := by
        simp only [List.length_cons] at hlen
        omega
      by_cases hc : c = '&'
      · subst hc
        cases htp : tryParam frags rest with
        | some r =>
          rw [scanF_succ_amp_match frags f rest r htp]
          exact ih r (le_trans (tryParam_length_le frags rest r htp) hrest)
        | none =>
          rw [scanF_succ_amp_none frags f rest htp]
          have h1 := tryParam_none_scanF frags hp f rest hrest htp
          simp [hasAmpMatch, h1, ih rest hrest]
      · rw [scanF_succ_keep frags f c rest hc]
        simp [hasAmpMatch, hc, ih rest hrest]

theorem scanF_id_of_no_match (frags : List (List PatElem)) :
    ∀ (fuel : Nat) (s : List Char), s.length ≤ fuel →
    hasAmpMatch frags s = false → scanF frags fuel s = s := by
  intro fuel
  induction fuel with
  | zero =>
    intro s _ _
    rfl
  | succ f ih =>
    intro s hlen hno
    cases s with
    | nil => rw [scanF_nil]
    | cons c rest =>
      have hrest : rest.length ≤ f := by
        simp only [List.length_cons] at hlen
        omega
      rw [show hasAmpMatch frags (c :: rest) =
          ((c == '&' && (tryParam frags rest).isSome) || hasAmpMatch frags rest)
        from rfl, Bool.or_eq_false_iff] at hno
      by_cases hc : c = '&'
      · subst hc
        have htp : tryParam frags rest = none := by
          cases htp2 : tryParam frags rest with
          | none => rfl
          | some r =>
            rw [htp2] at hno
            simp at hno
        rw [scanF_succ_amp_none frags f rest htp, ih rest hrest hno.2]
      · rw [scanF_succ_keep frags f c rest hc, ih rest hrest hno.2]

theorem replaceTracking_id_of_no_match (frags : List (List PatElem)) (s : List Char)
    (h : hasMatch frags s = false) : replaceTracking frags s = s := by
  unfold hasMatch at h
  rw [Bool.or_eq_false_iff] at h
  have htp : tryParam frags s = none := by
    cases htp2 : tryParam frags s with
    | none => rfl
    | some r =>
      rw [htp2] at h
      simp at h
  unfold replaceTracking scanAll
  rw [htp]
  exact scanF_id_of_no_match frags s.length s (Nat.le_refl _) h.2

theorem replaceTracking_out (frags : List (List PatElem))
    (hp : ∀ f ∈ frags, PlainFrag f) (s : List Char) :
    tryParam frags (replaceTracking frags s) = none ∧
    hasAmpMatch frags (replaceTracking frags s) = false := by
  unfold replaceTracking scanAll
  cases htp : tryParam frags s with
  | some r =>
    constructor
    · exact tryParam_none_scanF frags hp r.length r (Nat.le_refl _)
        (tryParam_none_headStop frags hp r (tryParam_shape frags s r htp))
    · exact hasAmpMatch_scanF frags hp r.length r (Nat.le_refl _)
  | none =>
    constructor
    · exact tryParam_none_scanF frags hp s.length s (Nat.le_refl _) htp
    · exact hasAmpMatch_scanF frags hp s.length s (Nat.le_refl _)

theorem hasAmpMatch_dropWhile (frags : List (List PatElem)) (p : Char → Bool)
    (l : List Char) (h : hasAmpMatch frags l = false) :
    hasAmpMatch frags (l.dropWhile p) = false := by
  induction l with
  | nil => exact h
  | cons c rest ih =>
    rw [show hasAmpMatch frags (c :: rest) =
        ((c == '&' && (tryParam frags rest).isSome) || hasAmpMatch frags rest)
      from rfl, Bool.or_eq_false_iff] at h
    rw [List.dropWhile_cons]
    by_cases hc : p c = true
    · rw [if_pos hc]
      exact ih h.2
    · rw [if_neg hc]
      rw [show hasAmpMatch frags (c :: rest) =
          ((c == '&' && (tryParam frags rest).isSome) || hasAmpMatch frags rest)
        from rfl, Bool.or_eq_false_iff]
      exact h

theorem tryParam_dropAmp (frags : List (List PatElem)) :
    ∀ (o : List Char), hasAmpMatch frags o = false →
    tryParam frags o = none → tryParam frags (dropAmp o) = none := by
  intro o
  induction o with
  | nil =>
    intro _ h
    exact h
  | cons c rest ih =>
    intro hamp htp
    rw [show hasAmpMatch frags (c :: rest) =
        ((c == '&' && (tryParam frags rest).isSome) || hasAmpMatch frags rest)
      from rfl, Bool.or_eq_false_iff] at hamp
    unfold dropAmp
    rw [List.dropWhile_cons]
    by_cases hc : c = '&'
    · subst hc
      rw [if_pos (by simp)]
      have htp2 : tryParam frags rest = none := by
        cases h2 : tryParam frags rest with
        | none => rfl
        | some r =>
          rw [h2] at hamp
          simp at hamp
      exact ih hamp.2 htp2
    · rw [if_neg (by simp [hc])]
      exact htp

theorem strip_out_no_match (frags : List (List PatElem))
    (hp : ∀ f ∈ frags, PlainFrag f) (s : List Char) :
    hasMatch frags (dropAmp (replaceTracking frags s)) = false := by
  obtain ⟨htp, hamp⟩ := replaceTracking_out frags hp s
  unfold hasMatch
  rw [Bool.or_eq_false_iff]
  constructor
  · rw [tryParam_dropAmp frags (replaceTracking frags s) hamp htp]
    rfl
  · exact hasAmpMatch_dropWhile frags _ _ hamp

theorem replaceTracking_idem (frags : List (List PatElem))
    (hp : ∀ f ∈ frags, PlainFrag f) (s : List Char) :
    replaceTracking frags (dropAmp (replaceTracking frags s)) =
      dropAmp (replaceTracking frags s) :=
  replaceTracking_id_of_no_match frags _ (strip_out_no_match frags hp s)

theorem scanF_sublist (frags : List (List PatElem)) :
    ∀ (fuel : Nat) (s : List Char), (scanF frags fuel s).Sublist s := by
  intro fuel
  induction fuel with
  | zero =>
    intro s
    exact List.Sublist.refl s
  | succ f ih =>
    intro s
    cases s with
    | nil =>
      rw [scanF_nil]
    | cons c rest =>
      by_cases hc : c = '&'
      · subst hc
        cases htp : tryParam frags rest with
        | some r =>
          rw [scanF_succ_amp_match frags f rest r htp]
          exact ((ih r).trans (tryParam_suffix frags rest r htp).sublist).trans
            (List.sublist_cons_self '&' rest)
        | none =>
          rw [scanF_succ_amp_none frags f rest htp]
          exact List.Sublist.cons₂ '&' (ih rest)
      · rw [scanF_succ_keep frags f c rest hc]
        exact List.Sublist.cons₂ c (ih rest)

theorem replaceTracking_sublist (frags : List (List PatElem)) (s : List Char) :
    (replaceTracking frags s).Sublist s := by
  unfold replaceTracking scanAll
  cases htp : tryParam frags s with
  | some r =>
    exact (scanF_sublist frags r.length r).trans (tryParam_suffix frags s r htp).sublist
  | none => exact scanF_sublist frags s.length s

theorem stripPiece_sublist (frags : List (List PatElem)) (s : List Char) :
    (dropAmp (replaceTracking frags s)).Sublist s :=
  ((List.dropWhile_suffix _).sublist).trans (replaceTracking_sublist frags s)

theorem stripUrl_main (frags : List (List PatElem)) (hp : ∀ f ∈ frags, PlainFrag f) :
    (∀ (url r : String), stripUrl frags url = some r → stripUrl frags r = none)
  ∧ (∀ (url : String) (p0 p1 : List Char) (rest : List (List Char)),
      splitOnChar '?' url.data = p0 :: p1 :: rest →
      hasMatch frags p1 = false → p1 ≠ [] → dropAmp p1 = p1 →
      stripUrl frags url = none) := by
  constructor
  · intro url r h
    unfold stripUrl at h
    rcases hsplit : splitOnChar '?' url.data with _ | ⟨p0, tail⟩
    · rw [hsplit] at h
      cases h
    rcases tail with _ | ⟨p1, rest⟩
    · rw [hsplit] at h
      cases h
    rw [hsplit] at h
    dsimp only at h
    have hq0 : ('?' : Char) ∉ p0 :=
      not_mem_of_mem_splitOnChar '?' url.data p0
        (by rw [hsplit]; exact List.mem_cons_self _ _)
    have hq1 : ('?' : Char) ∉ p1 :=
      not_mem_of_mem_splitOnChar '?' url.data p1
        (by rw [hsplit]; exact List.mem_cons_of_mem _ (List.mem_cons_self _ _))
    have hqrest : ∀ p ∈ rest, ('?' : Char) ∉ p := fun p hpmem =>
      not_mem_of_mem_splitOnChar '?' url.data p
        (by rw [hsplit]; exact List.mem_cons_of_mem _ (List.mem_cons_of_mem _ hpmem))
    by_cases hemp : dropAmp (replaceTracking frags p1) = []
    · rw [if_pos hemp] at h
      by_cases hru : p0 = url.data
      · rw [if_pos hru] at h
        cases h
      · rw [if_neg hru] at h
        injection h with h2
        unfold stripUrl
        rw [← h2, data_mk, splitOnChar_eq_singleton '?' p0 hq0]
    · rw [if_neg hemp] at h
      by_cases hru :
          joinChar '?' (p0 :: dropAmp (replaceTracking frags p1) :: rest) = url.data
      · rw [if_pos hru] at h
        cases h
      · rw [if_neg hru] at h
        injection h with h2
        have hq1s : ('?' : Char) ∉ dropAmp (replaceTracking frags p1) := fun hmem =>
          hq1 ((stripPiece_sublist frags p1).subset hmem)
        have hsplit2 : splitOnChar '?' r.data =
            p0 :: dropAmp (replaceTracking frags p1) :: rest := by
          rw [← h2, data_mk]
          refine splitOnChar_joinChar '?' _ (by simp) ?_
          intro p hpmem
          rcases List.mem_cons.1 hpmem with rfl | hpmem2
          · exact hq0
          rcases List.mem_cons.1 hpmem2 with rfl | hpmem3
          · exact hq1s
          · exact hqrest p hpmem3
        unfold stripUrl
        rw [hsplit2]
        dsimp only
        rw [replaceTracking_idem frags hp p1]
        rw [show dropAmp (dropAmp (replaceTracking frags p1)) =
            dropAmp (replaceTracking frags p1) from dropWhile_dropWhile_self _ _]
        rw [if_neg hemp]
        rw [if_pos (by rw [← h2, data_mk])]
  · intro url p0 p1 rest hsplit hno hne hdp
    unfold stripUrl
    rw [hsplit]
    dsimp only
    rw [replaceTracking_id_of_no_match frags p1 hno, hdp, if_neg hne]
    have hjoin : joinChar '?' (p0 :: p1 :: rest) = url.data := by
      rw [← hsplit]
      exact joinChar_splitOnChar '?' url.data
    rw [if_pos hjoin]

theorem mem_removeFirstEq (c : Char) : ∀ (x : List Char),
    c ∈ removeFirstEq x → c ∈ x := by
  intro x
  induction x with
  | nil =>
    intro h
    exact h
  | cons d rest ih =>
    intro h
    by_cases hd : d = '='
    · rw [removeFirstEq, if_pos hd] at h
      exact List.mem_cons_of_mem d h
    · rw [removeFirstEq, if_neg hd] at h
      rcases List.mem_cons.1 h with rfl | h2
      · exact List.mem_cons_self _ _
      · exact List.mem_cons_of_mem d (ih h2)

theorem removeFirstEq_no_eq : ∀ (x : List Char), x.count '=' ≤ 1 →
    ('=' : Char) ∉ removeFirstEq x := by
  intro x
  induction x with
  | nil =>
    intro _ h
    exact absurd h (List.not_mem_nil _)
  | cons d rest ih =>
    intro hcount h
    by_cases hd : d = '='
    · rw [removeFirstEq, if_pos hd] at h
      subst hd
      rw [List.count_cons_self] at hcount
      have h0 : rest.count '=' = 0 := by omega
      exact absurd h (List.count_eq_zero.1 h0)
    · rw [removeFirstEq, if_neg hd] at h
      rcases List.mem_cons.1 h with heq | h2
      · exact hd heq.symm
      · refine ih ?_ h2
        rw [List.count_cons_of_ne (fun hh => hd hh.symm)] at hcount
        exact hcount

theorem atomTrim_subset (e : PatElem) (f : List PatElem) (h : e ∈ atomTrim f) :
    e ∈ f := by
  unfold atomTrim at h
  rw [List.mem_reverse] at h
  have h2 : e ∈ (f.dropWhile isWsAtom).reverse :=
    (List.dropWhile_suffix _).sublist.subset h
  rw [List.mem_reverse] at h2
  exact (List.dropWhile_suffix _).sublist.subset h2

theorem buildTrackingParams_plain (setting : String)
    (hp : ∀ x ∈ splitOnChar ',' (trimChars setting.data), PlainName x) :
    ∀ f ∈ effectiveFrags (buildTrackingParams setting), PlainFrag f := by
  intro f hf
  unfold effectiveFrags at hf
  by_cases hemp : (buildTrackingParams setting).isEmpty = true
  · rw [if_pos hemp] at hf
    rcases List.mem_cons.1 hf with rfl | h2
    · intro e he
      exact absurd he (List.not_mem_nil e)
    · exact absurd h2 (List.not_mem_nil f)
  · rw [if_neg hemp] at hf
    unfold buildTrackingParams at hf
    have hf2 := List.mem_of_mem_filter hf
    obtain ⟨x, hx, hfx⟩ := List.mem_map.1 hf2
    intro e he
    have he2 : e ∈ atomize (removeFirstEq x) := by
      apply atomTrim_subset
      rw [← hfx] at he
      exact he
    obtain ⟨c, hc, hce⟩ := List.mem_map.1 he2
    by_cases hstar : c = '*'
    · rw [if_pos hstar] at hce
      rw [← hce]
      trivial
    · rw [if_neg hstar] at hce
      rw [← hce]
      have hcx : c ∈ x := mem_removeFirstEq c x hc
      have hpn := hp x hx
      refine ⟨(hpn.1 c hcx).1, (hpn.1 c hcx).2.1, ?_⟩
      intro hceq
      subst hceq
      exact removeFirstEq_no_eq x hpn.2 hc

/-- C8 counterexample: the URL "http://e.x?&a=1" contains no matching
query parameter (for the setting "utm_source"), yet the strip does not
report "no rewrite": the unconditional removal of the leading '&' after
the '?' rewrites it to "http://e.x?a=1".  This falsifies the claim that a
URL with no matching query parameters is always reported as null. -/
theorem strip_nochange_counterexample :
    hasMatch (effectiveFrags (buildTrackingParams "utm_source")) ("&a=1".data) = false ∧
    removeTrackersCore "utm_source" "http://e.x?&a=1" = some "http://e.x?a=1" := by
  decide

/-- C8 (amended): for a tracking-parameter setting whose comma-separated
names are parameter-name globs over plain characters — free of regex
metacharacters other than the documented '*', of '&' and '#', and of a
second '=' — the strip is idempotent: a stripped URL is reported as "no
rewrite" when stripped again, and the total transformation is a fixed
point after one application; a URL whose query piece is nonempty, does not
begin with '&' and contains no matching parameter is reported as null.
(Without those two provisos the "no matching parameters implies null" half
fails: see the counterexample, where cleanup of a leading '&' counts as a
rewrite.  Names carrying other regex metacharacters compile to regular
expressions outside the documented glob language and are excluded.) -/
theorem strip_idempotent (setting : String)
    (hp : ∀ x ∈ splitOnChar ',' (trimChars setting.data), PlainName x) :
    (∀ (url r : String), removeTrackersCore setting url = some r →
      removeTrackersCore setting r = none)
  ∧ (∀ url : String, stripFix setting (stripFix setting url) = stripFix setting url)
  ∧ (∀ (url : String) (p0 p1 : List Char) (rest : List (List Char)),
      splitOnChar '?' url.data = p0 :: p1 :: rest →
      hasMatch (effectiveFrags (buildTrackingParams setting)) p1 = false →
      p1 ≠ [] → dropAmp p1 = p1 →
      removeTrackersCore setting url = none) := by
  have hfr : ∀ f ∈ effectiveFrags (buildTrackingParams setting), PlainFrag f :=
    buildTrackingParams_plain setting hp
  obtain ⟨hmain, hnull⟩ := stripUrl_main (effectiveFrags (buildTrackingParams setting)) hfr
  refine ⟨fun url r h => hmain url r h, ?_,
    fun url p0 p1 rest h1 h2 h3 h4 => hnull url p0 p1 rest h1 h2 h3 h4⟩
  intro url
  cases hcore : removeTrackersCore setting url with
  | none => simp [stripFix, hcore]
  | some r =>
    have h2 : removeTrackersCore setting r = none := hmain url r hcore
    simp [stripFix, hcore, h2]

/-- C8 (amended) witness: the setting "utm_*,fbclid" is a list of plain
parameter-name globs; stripping "http://e.x?utm_source=1&a=2" removes the
glob-matched utm_source parameter giving "http://e.x?a=2", and a second
application is a fixed point. -/
theorem strip_idempotent_witness :
    (∀ x ∈ splitOnChar ',' (trimChars ("utm_*,fbclid").data), PlainName x) ∧
    stripFix "utm_*,fbclid" (stripFix "utm_*,fbclid" "http://e.x?utm_source=1&a=2") =
      stripFix "utm_*,fbclid" "http://e.x?utm_source=1&a=2" ∧
    stripFix "utm_*,fbclid" "http://e.x?utm_source=1&a=2" = "http://e.x?a=2" :=
  ⟨by decide,
   (strip_idempotent "utm_*,fbclid" (by decide)).2.1 "http://e.x?utm_source=1&a=2",
   by decide⟩

end Stealth

end PurifySpec
